import Mathlib

/-!
Penego scan engine: port-spec parser, CIDR expander, TCP prober, host and network scanner.

A shallow embedding of `handlers/scan_handler.go`, with the properties of
`ParsePorts`, `HostsFromCIDR`, `ProbeTCP`, `ScanHost` and `ScanNetwork`.

Modelling conventions.

* A Go `string` is a sequence of runes, `Str = List Char` (valid UTF-8 text).
* Go `int` is the 64-bit two's-complement integer; values are `Int` and the
  only arithmetic that can leave the range, the `i++` of the range loop in
  `ParsePorts`, wraps explicitly (`wrap64`). Bytes are `Nat` below 256 and
  `ip[j]++` is taken modulo 256.
* A `for` loop without a static bound takes a fuel argument; `none` means the
  fuel ran out before the loop ended.
* The functions of the Go standard library that the handlers call
  (`strings.Split`, `strings.TrimSpace`, `strconv.Atoi`, `net.ParseCIDR`,
  `net.IPNet.Contains`, ...) are written out after their documented behaviour;
  `netip.ParseAddr`, `net.IP.String` and the Unicode case table are parameters.
* What lies outside the program is a parameter: the network behind
  `net.DialTimeout`, the iteration order of the Go map `fingerprints`, and the
  interleaving of the goroutines, given as a schedule of the steps
  launch / hand over / release of a pool behind a counting semaphore.
-/

namespace Penego

/-- A Go string, as its sequence of runes. -/
abbrev Str := List Char

instance instDecidableEqExcept {ε α : Type} [DecidableEq ε] [DecidableEq α] :
    DecidableEq (Except ε α)
  | .ok a, .ok b => if h : a = b then isTrue (by rw [h]) else isFalse (by intro hh; cases hh; exact h rfl)
  | .error a, .error b =>
    if h : a = b then isTrue (by rw [h]) else isFalse (by intro hh; cases hh; exact h rfl)
  | .ok _, .error _ => isFalse (by intro hh; cases hh)
  | .error _, .ok _ => isFalse (by intro hh; cases hh)

/-! ## Standard library: `unicode`, `strings`, `strconv` -/

/-- Go `unicode.IsSpace`: the Latin-1 spaces `\t \n \v \f \r`, space, U+0085, U+00A0
and the other code points with the White_Space property. -/
def isSpace (c : Char) : Bool :=
  let n := c.toNat
  (9 ≤ n && n ≤ 13) || n == 32 || n == 0x85 || n == 0xA0 || n == 0x1680 ||
  (0x2000 ≤ n && n ≤ 0x200A) || n == 0x2028 || n == 0x2029 || n == 0x202F ||
  n == 0x205F || n == 0x3000

/-- Go `strings.TrimSpace`: drop leading and trailing white space. -/
def TrimSpace (s : Str) : Str :=
  (s.dropWhile isSpace).rdropWhile isSpace

/-- Go `strings.Split(s, sep)` for a one-rune separator: the pieces between the
occurrences of `sep`; the empty string gives one empty piece. -/
def Split (s : Str) (sep : Char) : List Str :=
  s.splitOn sep

/-- Go `strings.Contains(s, sep)` for a one-rune `sep`. -/
def Contains (s : Str) (sep : Char) : Bool :=
  s.elem sep

/-- Go `strings.SplitN(s, sep, 2)` for a one-rune separator: cut at the first
occurrence of `sep`, or return `s` alone when there is none. -/
def SplitN2 (s : Str) (sep : Char) : List Str :=
  match s.span (fun c => c != sep) with
  | (a, []) => [a]
  | (a, _ :: b) => [a, b]

/-- Largest value of Go `int` (64-bit). -/
def maxInt : Int := 9223372036854775807

/-- Smallest value of Go `int` (64-bit). -/
def minInt : Int := -9223372036854775808

/-- Two's-complement reduction of an integer to the range of Go `int`. -/
def wrap64 (i : Int) : Int :=
  (i + 9223372036854775808) % 18446744073709551616 - 9223372036854775808

/-- Errors returned by `ParsePorts`: the `*strconv.NumError` of `Atoi`
(syntax or range, with the offending text) and the `bad range` error. -/
inductive ParseError where
  | syntaxErr (num : Str)
  | rangeErr (num : Str)
  | badRange (tok : Str)
  deriving DecidableEq, Repr

/-- Value of an ASCII decimal digit. -/
def digitVal (c : Char) : Option Nat :=
  if 48 ≤ c.toNat ∧ c.toNat ≤ 57 then some (c.toNat - 48) else none

/-- Accumulate decimal digits left to right; `none` on the first rune that is
not an ASCII digit. -/
def parseDigits : Str → Nat → Option Nat
  | [], acc => some acc
  | c :: cs, acc =>
    match digitVal c with
    | none => none
    | some d => parseDigits cs (acc * 10 + d)

/-- The digit loop of Go `strconv.ParseUint` for base 10 and 64 bits, behind
`strconv.Atoi`: a syntax error at the first rune that is not an ASCII digit, a
range error as soon as the value leaves the range of `uint64`; `s0` is the
text reported in the error. -/
def parseUint (s0 : Str) : Str → Nat → Except ParseError Nat
  | [], n => .ok n
  | c :: cs, n =>
    match digitVal c with
    | none => .error (.syntaxErr s0)
    | some d =>
      if n * 10 + d ≥ 18446744073709551616 then .error (.rangeErr s0)
      else parseUint s0 cs (n * 10 + d)

/-- Go `strconv.Atoi`: an optional sign `+` or `-`, then one or more ASCII
decimal digits; the value must fit the 64-bit `int`. -/
def Atoi (s : Str) : Except ParseError Int :=
  match s with
  | [] => .error (.syntaxErr s)
  | c :: rest =>
    let neg := c == '-'
    let ds := if c == '-' || c == '+' then rest else s
    match ds with
    | [] => .error (.syntaxErr s)
    | _ =>
      match parseUint s ds 0 with
      | .error e => .error e
      | .ok n =>
        if neg then
          if n ≤ 9223372036854775808 then .ok (-(n : Int)) else .error (.rangeErr s)
        else
          if n < 9223372036854775808 then .ok (n : Int) else .error (.rangeErr s)

/-- Decimal digits of a natural number, most significant first (`fuel` bounds
the number of digits). -/
def natDigits : Nat → Nat → Str → Str
  | 0, _, acc => acc
  | fuel + 1, n, acc =>
    let acc1 := Char.ofNat (48 + n % 10) :: acc
    if n / 10 = 0 then acc1 else natDigits fuel (n / 10) acc1

/-- Go `strconv.Itoa`: decimal rendering, `-` in front of a negative number. -/
def Itoa (i : Int) : Str :=
  if i < 0 then '-' :: natDigits (i.natAbs + 1) i.natAbs []
  else natDigits (i.natAbs + 1) i.natAbs []

/-- Go `strings.Join(elems, ",")`. -/
def joinComma (elems : List Str) : Str :=
  [','].intercalate elems

/-! ## `ParsePorts` -/

/-- The key set of the Go map `out` (`map[int]struct{}`), as a duplicate-free list.
`out[i] = struct{}{}` adds the key when it is not present. -/
def mapSet (out : List Int) (i : Int) : List Int :=
  if i ∈ out then out else i :: out

/-- The loop `for i := lo; i <= hi; i++ { out[i] = struct{}{} }` of `ParsePorts`,
started at `i`; `i++` wraps at the end of the `int` range. -/
def rangeLoop : Nat → Int → Int → List Int → Option (List Int)
  | 0, _, _, _ => none
  | fuel + 1, i, hi, out =>
    if i ≤ hi then rangeLoop fuel (wrap64 (i + 1)) hi (mapSet out i) else some out

/-- The loop `for _, p := range parts` of `ParsePorts`, with the map `out` as
accumulator. -/
def parseLoop (fuel : Nat) : List Str → List Int → Option (Except ParseError (List Int))
  | [], out => some (.ok out)
  | p0 :: ps, out =>
    let p := TrimSpace p0
    if p = [] then parseLoop fuel ps out
    else if Contains p '-' then
      match SplitN2 p '-' with
      | [r0, r1] =>
        match Atoi (TrimSpace r0) with
        | .error e => some (.error e)
        | .ok lo =>
          match Atoi (TrimSpace r1) with
          | .error e => some (.error e)
          | .ok hi =>
            let lo1 := if lo > hi then hi else lo
            let hi1 := if lo > hi then lo else hi
            match rangeLoop fuel lo1 hi1 out with
            | none => none
            | some out1 => parseLoop fuel ps out1
      | _ => some (.error (.badRange p))
    else
      match Atoi p with
      | .error e => some (.error e)
      | .ok v => parseLoop fuel ps (mapSet out v)

/-- Go `sort.Ints` applied to the keys of the map collected in unspecified
order: the ascending arrangement of the keys. -/
def sortInts (keys : List Int) : List Int :=
  keys.insertionSort (fun a b => a ≤ b)

/-- `ScanHandler.ParsePorts`. `fuel` bounds each range loop; `none` = the fuel
ran out, `some (.error e)` = `(nil, err)`, `some (.ok ports)` = `(ports, nil)`. -/
def ParsePorts (fuel : Nat) (s : Str) : Option (Except ParseError (List Int)) :=
  match parseLoop fuel (Split s ',') [] with
  | none => none
  | some (.error e) => some (.error e)
  | some (.ok out) => some (.ok (sortInts out))

/-- The reading of a port-spec token in the words of the specification: the
token (already trimmed) stands for `n` when it is the integer `n`, or when it
is a range `a-b`, two integers around a `-`, with `n` between the bounds taken
in either order. -/
def SpecTokenHas (p : Str) (n : Int) : Prop :=
  Atoi p = .ok n ∨
  ∃ A B a b, p = A ++ '-' :: B ∧ Atoi (TrimSpace A) = .ok a ∧
    Atoi (TrimSpace B) = .ok b ∧ min a b ≤ n ∧ n ≤ max a b

/-- The tokens the specification calls well-formed: an integer that `Atoi`
accepts, or a range `low-high` whose two trimmed bounds are such integers. -/
def SpecTokenValid (p : Str) : Prop :=
  (∃ v, Atoi p = .ok v) ∨
  ∃ A B a b, p = A ++ '-' :: B ∧ Atoi (TrimSpace A) = .ok a ∧ Atoi (TrimSpace B) = .ok b

/-- The inputs the specification says are rejected: some comma-separated
token, trimmed, is non-empty and not well-formed. -/
def SpecRejects (s : Str) : Prop :=
  ∃ tok ∈ Split s ',', TrimSpace tok ≠ [] ∧ ¬ SpecTokenValid (TrimSpace tok)

/-- The tokens the code rejects: a non-empty token without `-` that is not an
integer, or a token with `-` whose parts before and after its first `-` are not
both integers after trimming. -/
def TokenRejected (p : Str) : Prop :=
  p ≠ [] ∧
  (('-' ∉ p ∧ ∀ v, Atoi p ≠ .ok v) ∨
   ∃ A B, p = A ++ '-' :: B ∧ '-' ∉ A ∧
     ¬ ∃ a b, Atoi (TrimSpace A) = .ok a ∧ Atoi (TrimSpace B) = .ok b)

/-- The tokens on which the range loop of the code does not end: a token with
`-` whose trimmed parts before and after its first `-` are integers, the
larger of them the largest `int`. -/
def TokenRunsToMax (p : Str) : Prop :=
  ∃ A B a b, p = A ++ '-' :: B ∧ '-' ∉ A ∧ Atoi (TrimSpace A) = .ok a ∧
    Atoi (TrimSpace B) = .ok b ∧ max a b = maxInt

/-- An ASCII decimal digit. -/
def IsDigit (c : Char) : Prop := 48 ≤ c.toNat ∧ c.toNat ≤ 57

/-! ## `ProbeTCP` -/

/-- `models.PortInfo`, without the database columns (`ID`, `ScanID`, `gorm.Model`),
which the scan code leaves at their zero values. -/
structure PortInfo where
  Port : Int
  Open : Bool
  Service : Str
  Banner : Str
  deriving DecidableEq, Repr

/-- The fingerprint table `fingerprints`, in the order of its declaration. -/
def fingerprints : List (Str × Str) :=
  [("OpenSSH".toList, "SSH server".toList),
   ("Apache".toList, "Apache HTTP Server".toList),
   ("nginx".toList, "nginx HTTP Server".toList),
   ("MySQL".toList, "MySQL service".toList),
   ("PostgreSQL".toList, "PostgreSQL service".toList)]

/-- The reasons for which `net.DialTimeout` fails. -/
inductive DialError where
  | malformed
  | timeout
  | refused
  | unreachable
  deriving DecidableEq, Repr

/-- The outcome of `net.DialTimeout`: an error, or a connection, given by the
text that `Peek(512)` delivers before the read deadline (empty when the read
fails or times out). -/
inductive DialResult where
  | error (e : DialError)
  | conn (peek : Str)
  deriving DecidableEq, Repr

/-- What one call of `ProbeTCP` meets outside the program: the network behind
`net.DialTimeout` (address and timeout to outcome), the order in which the Go
runtime iterates over the map `fingerprints` during this call, and the Unicode
case table for code points beyond ASCII. -/
structure World where
  dial : Str → Nat → DialResult
  mapOrder : List (Str × Str)
  lowerTable : Char → Char

/-- Go `unicode.ToLower`: `A`-`Z` to `a`-`z`, other ASCII unchanged, the rest by
the Unicode case table. -/
def toLowerRune (tbl : Char → Char) (c : Char) : Char :=
  if c.toNat ≤ 127 then
    if 65 ≤ c.toNat ∧ c.toNat ≤ 90 then Char.ofNat (c.toNat + 32) else c
  else tbl c

/-- Go `strings.ToLower`. -/
def ToLower (tbl : Char → Char) (s : Str) : Str :=
  s.map (toLowerRune tbl)

/-- Go `strings.Contains(s, substr)`: `substr` occurs in `s` as a contiguous block. -/
def ContainsStr (s substr : Str) : Bool :=
  s.tails.any (fun t => substr.isPrefixOf t)

/-- Go `net.JoinHostPort`: the host in brackets when it contains `:`. -/
def JoinHostPort (host port : Str) : Str :=
  if host.elem ':' then '[' :: (host ++ ']' :: ':' :: port)
  else host ++ ':' :: port

/-- The test of the fingerprint loop: the lower-cased banner contains the
lower-cased marker. -/
def markerMatches (tbl : Char → Char) (banner marker : Str) : Bool :=
  ContainsStr (ToLower tbl banner) (ToLower tbl marker)

/-- An upper-case ASCII letter `u` and its lower-case form `l`. -/
def AsciiCasePair (u l : Char) : Prop :=
  65 ≤ u.toNat ∧ u.toNat ≤ 90 ∧ l.toNat = u.toNat + 32

/-- The reading of "the same letter up to case" for a rune `x` of a banner
against a rune `m` of a marker (the markers are ASCII): an ASCII rune is the
letter `m` when it is `m` or the two are the upper- and lower-case form of one
ASCII letter; a rune beyond ASCII is the letter `m` when its Unicode lower
case is the lower-case form of `m`. -/
def SameUpToCase (tbl : Char → Char) (x m : Char) : Prop :=
  if x.toNat ≤ 127 then x = m ∨ AsciiCasePair x m ∨ AsciiCasePair m x
  else (tbl x = m ∧ ¬ (65 ≤ m.toNat ∧ m.toNat ≤ 90)) ∨ AsciiCasePair m (tbl x)

/-- The reading of "the banner contains the marker, compared
case-insensitively": some contiguous block of the banner is, rune by rune, the
marker up to case. -/
def ContainsIgnoringCase (tbl : Char → Char) (banner marker : Str) : Prop :=
  ∃ pre mid post, banner = pre ++ mid ++ post ∧ List.Forall₂ (SameUpToCase tbl) mid marker

/-- `ScanHandler.ProbeTCP`. The second component is the returned `error`
(`none` = `nil`). The timeout is in nanoseconds (`time.Duration`). -/
def ProbeTCP (w : World) (ip : Str) (port : Int) (timeout : Nat) (grabBanner : Bool) :
    PortInfo × Option DialError :=
  let pi : PortInfo := { Port := port, Open := false, Service := [], Banner := [] }
  let addr := JoinHostPort ip (Itoa port)
  match w.dial addr timeout with
  | .error _ => (pi, none)
  | .conn b =>
    let pi1 := { pi with Open := true }
    if grabBanner then
      let pi2 := { pi1 with Banner := TrimSpace b }
      match w.mapOrder.find? (fun kv => markerMatches w.lowerTable pi2.Banner kv.1) with
      | some kv => ({ pi2 with Service := kv.2 }, none)
      | none => (pi2, none)
    else (pi1, none)

/-! ## Bounded fan-out: goroutines behind a counting semaphore -/

/-- The state of a `for` loop that starts one goroutine per task behind a
semaphore channel: the tasks not yet started, the goroutines that hold a slot
of the semaphore, each with a flag telling whether it has handed over its
result, and the tasks in the order in which their results were handed over. -/
structure Pool (α : Type) where
  pending : List α
  running : List (α × Bool)
  delivered : List α

/-- One step of the scheduler: the loop starts the next goroutine
(`sem <- struct{}{}; go ...`), the `k`-th running goroutine hands over its
result, or the `k`-th running goroutine, having handed over, frees its slot
(`<-sem`) and ends (`wg.Done()`). -/
inductive Step where
  | launch
  | deliver (k : Nat)
  | release (k : Nat)
  deriving DecidableEq, Repr

/-- Effect of one scheduler step with a semaphore of capacity `c`; `none` when
the step is not enabled (a launch blocks while `c` goroutines hold a slot). -/
def Pool.step {α : Type} (c : Nat) (s : Pool α) : Step → Option (Pool α)
  | .launch =>
    match s.pending with
    | [] => none
    | t :: ts =>
      if s.running.length < c then
        some { pending := ts, running := s.running ++ [(t, false)], delivered := s.delivered }
      else none
  | .deliver k =>
    match s.running[k]? with
    | some (t, false) =>
      some { pending := s.pending, running := s.running.set k (t, true),
             delivered := s.delivered ++ [t] }
    | _ => none
  | .release k =>
    match s.running[k]? with
    | some (_, true) =>
      some { pending := s.pending, running := s.running.eraseIdx k, delivered := s.delivered }
    | _ => none

/-- Run a schedule. -/
def Pool.run {α : Type} (c : Nat) : Pool α → List Step → Option (Pool α)
  | s, [] => some s
  | s, st :: rest =>
    match s.step c st with
    | none => none
    | some s1 => Pool.run c s1 rest

/-- The fan-out under a schedule: `wg.Wait()` returns when every task has been
started and every goroutine has ended; the result is the order in which the
goroutines handed over. `none` when the schedule takes a step that is not
enabled or stops before the end. -/
def fanOut {α : Type} (c : Nat) (tasks : List α) (sched : List Step) : Option (List α) :=
  match Pool.run c { pending := tasks, running := [], delivered := [] } sched with
  | some { pending := [], running := [], delivered := d } => some d
  | _ => none

/-- The schedule that runs the goroutines one after the other. -/
def seqSchedule : Nat → List Step
  | 0 => []
  | n + 1 => Step.launch :: Step.deliver 0 :: Step.release 0 :: seqSchedule n

/-! ## `ScanHost` -/

/-- `models.HostResult`, without the database columns and the unused `OS`. -/
structure HostResult where
  IP : Str
  Alive : Bool
  OpenPorts : List PortInfo
  deriving DecidableEq, Repr

/-- `ScanHandler.ScanHost`. `world i` is what the probe of the `i`-th entry of
`ports` meets, `sched` the interleaving of the goroutines. A goroutine hands
over by sending its result on `resCh` when the port is open and by sending
nothing when it is closed, so `resCh` holds the open results in the order of
hand-over. `none`: `make` panics on a negative capacity, or the schedule is not
a complete run (with capacity 0 and a port to scan there is none: the first
`sem <-` blocks for ever). -/
def ScanHost (world : Nat → World) (sched : List Step) (ip : Str) (ports : List Int)
    (timeout : Nat) (concurrency : Int) (grabBanner : Bool) : Option HostResult :=
  let host : HostResult := { IP := ip, Alive := false, OpenPorts := [] }
  if concurrency < 0 then none
  else
    match fanOut concurrency.toNat ports.enum sched with
    | none => none
    | some order =>
      let resCh := (order.map (fun t => (ProbeTCP (world t.1) ip t.2 timeout grabBanner).1)).filter
        (fun pi => pi.Open)
      let host1 := { host with OpenPorts := host.OpenPorts ++ resCh }
      if host1.OpenPorts.length > 0 then some { host1 with Alive := true } else some host1

/-! ## `ScanNetwork` -/

/-- `models.ScanReport`, without the database columns and the time stamp. -/
structure ScanReport where
  TrueTargets : List HostResult
  FalseTargets : List HostResult
  Target : Str
  PortsScanned : Str
  Notes : Str
  deriving DecidableEq, Repr

/-- Go `<` on strings. -/
def strLess (a b : Str) : Bool := decide (a < b)

/-- Go `sort.Slice` with a `less` function. The library sort is not stable;
entries that `less` does not separate come out in an unspecified order, of
which this is one. -/
def sortSlice {α : Type} (less : α → α → Bool) (l : List α) : List α :=
  l.insertionSort (fun a b => less b a = false)

/-- The scanning part of `ScanHandler.ScanNetwork` (from `semHosts := ...` to the
two `sort.Slice` calls), for the expanded target list and the parsed ports.
`world j` and `portSched j` are the probe worlds and the goroutine interleaving
of the host scan of the `j`-th target, `hostSched` the interleaving of the host
goroutines. Each host goroutine hands over by appending, under `resLock`, to
`TrueTargets` or `FalseTargets`. -/
def ScanNetwork (world : Nat → Nat → World) (portSched : Nat → List Step)
    (hostSched : List Step) (target portsSpec : Str) (targets : List Str) (ports : List Int)
    (timeout : Nat) (concurrency : Int) (grabBanner : Bool) : Option ScanReport :=
  let scanReport : ScanReport :=
    { TrueTargets := [], FalseTargets := [], Target := target, PortsScanned := portsSpec,
      Notes := "Scan initiated via web interface".toList }
  if concurrency < 0 then none
  else
    match fanOut concurrency.toNat targets.enum hostSched with
    | none => none
    | some order =>
      let collected := order.foldl
        (fun (acc : Option ScanReport) t =>
          match acc with
          | none => none
          | some rep =>
            match ScanHost (world t.1) (portSched t.1) t.2 ports timeout concurrency grabBanner with
            | none => none
            | some hostResult =>
              if hostResult.Alive then
                some { rep with TrueTargets := rep.TrueTargets ++ [hostResult] }
              else
                some { rep with FalseTargets := rep.FalseTargets ++ [hostResult] })
        (some scanReport)
      match collected with
      | none => none
      | some rep =>
        some { rep with
          TrueTargets := sortSlice (fun a b => strLess a.IP b.IP) rep.TrueTargets,
          FalseTargets := sortSlice (fun a b => strLess a.IP b.IP) rep.FalseTargets }

/-- A world in which every dial fails with the error `e`. -/
def failingWorld (e : DialError) : World :=
  { dial := fun _ _ => .error e, mapOrder := fingerprints, lowerTable := id }

/-- A world in which every dial succeeds and the peer sends `b`; the
fingerprint table is visited in reverse order of declaration. -/
def bannerWorld (b : Str) : World :=
  { dial := fun _ _ => .conn b, mapOrder := fingerprints.reverse, lowerTable := id }

/-- The tasks of the running goroutines that have not handed over yet. -/
def waiting {α : Type} (l : List (α × Bool)) : List α :=
  (l.filter (fun x => !x.2)).map (fun x => x.1)

/-- Every task of a pool that is handed over or still will be: the delivered
ones, those running and not yet handed over, and those not yet started. -/
def Pool.all {α : Type} (s : Pool α) : List α :=
  s.delivered ++ (waiting s.running ++ s.pending)

/-- The results of the probes of a host scan, one for each entry of the port
list, in the order of the list. -/
def probeResults (world : Nat → World) (ip : Str) (ports : List Int) (timeout : Nat)
    (grabBanner : Bool) : List PortInfo :=
  ports.enum.map (fun t => (ProbeTCP (world t.1) ip t.2 timeout grabBanner).1)

/-- The body of a host goroutine of `ScanNetwork` as a step of the fold over
the order of hand-over: scan the host, then append the result to
`TrueTargets` or to `FalseTargets`. -/
def collectHost (world : Nat → Nat → World) (portSched : Nat → List Step) (ports : List Int)
    (timeout : Nat) (concurrency : Int) (grabBanner : Bool)
    (acc : Option ScanReport) (t : Nat × Str) : Option ScanReport :=
  match acc with
  | none => none
  | some rep =>
    match ScanHost (world t.1) (portSched t.1) t.2 ports timeout concurrency grabBanner with
    | none => none
    | some hostResult =>
      if hostResult.Alive then
        some { rep with TrueTargets := rep.TrueTargets ++ [hostResult] }
      else
        some { rep with FalseTargets := rep.FalseTargets ++ [hostResult] }

/-- A network in which the host of index 1 answers on every port and no other
host answers. -/
def secondHostUp (j : Nat) (_ : Nat) : World :=
  if j = 1 then bannerWorld [] else failingWorld .timeout

/-! ## Standard library: `net` -/

/-- Go `net.IP`: a slice of bytes, 4 for the short IPv4 form and 16 otherwise;
the nil slice is the empty list. -/
abbrev IP := List Nat

/-- Go `net.IPMask`. -/
abbrev IPMask := List Nat

/-- Go `net.IPNet`. -/
structure IPNet where
  IP : IP
  Mask : IPMask
  deriving DecidableEq, Repr

/-- The result of `netip.ParseAddr` on an address without zone: an IPv4
address, by its four bytes, or an IPv6 address, by its sixteen bytes. -/
inductive Addr where
  | v4 (a b c d : Nat)
  | v6 (bytes : List Nat)
  deriving DecidableEq, Repr

/-- Go `netip.Addr.BitLen`. -/
def Addr.BitLen : Addr → Nat
  | .v4 _ _ _ _ => 32
  | .v6 _ => 128

/-- The prefix `::ffff:0:0/96` of the IPv4 addresses in 16-byte form. -/
def v4InV6Prefix : List Nat := [0, 0, 0, 0, 0, 0, 0, 0, 0, 0, 255, 255]

/-- Go `netip.Addr.As16`. -/
def Addr.As16 : Addr → IP
  | .v4 a b c d => v4InV6Prefix ++ [a, b, c, d]
  | .v6 bytes => bytes

/-- The loop of `net.CIDRMask` over `l` bytes with `n` ones left:
`0xff` while eight ones are left, then `^byte(0xff >> n)`, then zeros. -/
def cidrMaskLoop : Nat → Nat → IPMask
  | 0, _ => []
  | l + 1, n =>
    if n ≥ 8 then 255 :: cidrMaskLoop l (n - 8)
    else (255 - (255 >>> n)) :: cidrMaskLoop l 0

/-- Go `net.CIDRMask(ones, bits)`. -/
def CIDRMask (ones bits : Nat) : IPMask :=
  if bits ≠ 32 ∧ bits ≠ 128 then []
  else if ones > bits then []
  else cidrMaskLoop (bits / 8) ones

/-- Go `net.IP.Mask`. -/
def IP.Mask (ip : IP) (mask : IPMask) : IP :=
  let mask1 :=
    if mask.length = 16 ∧ ip.length = 4 ∧ (mask.take 12).all (fun b => b == 255) then
      mask.drop 12
    else mask
  let ip1 :=
    if mask1.length = 4 ∧ ip.length = 16 ∧ ip.take 12 = v4InV6Prefix then ip.drop 12 else ip
  if ip1.length ≠ mask1.length then []
  else List.zipWith (fun x m => x &&& m) ip1 mask1

/-- Go `net.IP.To4`; `none` is the nil result. -/
def IP.To4 (ip : IP) : Option IP :=
  if ip.length = 4 then some ip
  else if ip.length = 16 ∧ (ip.take 10).all (fun b => b == 0) ∧ ip.getD 10 0 = 255 ∧
      ip.getD 11 0 = 255 then
    some (ip.drop 12)
  else none

/-- Go `net.networkNumberAndMask`; the pair of nil slices is `([], [])`. -/
def networkNumberAndMask (n : IPNet) : IP × IPMask :=
  let ip0 : Option IP :=
    match IP.To4 n.IP with
    | some x => some x
    | none => if n.IP.length ≠ 16 then none else some n.IP
  match ip0 with
  | none => ([], [])
  | some ip =>
    let m := n.Mask
    if m.length = 4 then
      if ip.length ≠ 4 then ([], []) else (ip, m)
    else if m.length = 16 then
      if ip.length = 4 then (ip, m.drop 12) else (ip, m)
    else ([], [])

/-- The comparison loop of `net.IPNet.Contains` over the bytes of the network
number, the mask and the address. -/
def containsLoop : IP → IPMask → IP → Bool
  | n :: nn, m :: ms, x :: xs => if n &&& m ≠ x &&& m then false else containsLoop nn ms xs
  | _, _, _ => true

/-- Go `net.IPNet.Contains`. -/
def IPNet.Contains (n : IPNet) (ip : Penego.IP) : Bool :=
  let nm := networkNumberAndMask n
  let ip1 := match IP.To4 ip with
    | some x => x
    | none => ip
  if ip1.length ≠ nm.1.length then false
  else containsLoop nm.1 nm.2 ip1

/-- The loop of the internal `dtoi` of package `net`: value, number of runes
read, success; the value is capped at `0xFFFFFF`. -/
def dtoiLoop : Str → Nat → Nat → Nat × Nat × Bool
  | [], n, i => if i = 0 then (0, 0, false) else (n, i, true)
  | c :: cs, n, i =>
    match digitVal c with
    | some d =>
      if n * 10 + d ≥ 16777215 then (16777215, i, false) else dtoiLoop cs (n * 10 + d) (i + 1)
    | none => if i = 0 then (0, 0, false) else (n, i, true)

/-- The internal `dtoi` of package `net`. -/
def dtoi (s : Str) : Nat × Nat × Bool :=
  dtoiLoop s 0 0

/-- The error of `net.ParseCIDR`: `ParseError{Type: "CIDR address", Text: s}`. -/
inductive NetError where
  | cidrAddress (text : Str)
  deriving DecidableEq, Repr

/-- Go `net.ParseCIDR`, around the address parser `netip.ParseAddr`, which is a
parameter (`none` for an error or an address with a zone). -/
def ParseCIDR (parseAddr : Str → Option Addr) (s : Str) : Except NetError (IP × IPNet) :=
  match SplitN2 s '/' with
  | [addr, mask] =>
    match parseAddr addr with
    | none => .error (.cidrAddress s)
    | some ipAddr =>
      let r := dtoi mask
      if !r.2.2 || r.2.1 ≠ mask.length || r.1 > ipAddr.BitLen then .error (.cidrAddress s)
      else
        let m := CIDRMask r.1 ipAddr.BitLen
        let addr16 := ipAddr.As16
        .ok (addr16, { IP := IP.Mask addr16 m, Mask := m })
  | _ => .error (.cidrAddress s)

/-! ## `HostsFromCIDR` -/

/-- One pass of the loop body of `incIP` at index `j`, written for `j + 1`:
`ip[j]++` on a byte, stop unless the byte became zero. -/
def incIPLoop : Nat → IP → IP
  | 0, ip => ip
  | j + 1, ip =>
    let ip1 := ip.set j ((ip.getD j 0 + 1) % 256)
    if ip1.getD j 0 ≠ 0 then ip1 else incIPLoop j ip1

/-- `ScanHandler.incIP`: add one to the address, from the last byte with carry. -/
def incIP (ip : IP) : IP :=
  incIPLoop ip.length ip

/-- The loop `for ip := ip.Mask(ipnet.Mask); ipnet.Contains(ip); h.incIP(ip)` of
`HostsFromCIDR`, from the current `ip`, appending `ip.String()` to `ips`. -/
def hostLoop (ipString : IP → Str) : Nat → IPNet → IP → List Str → Option (List Str)
  | 0, _, _, _ => none
  | fuel + 1, ipnet, ip, ips =>
    if ipnet.Contains ip then hostLoop ipString fuel ipnet (incIP ip) (ips ++ [ipString ip])
    else some ips

/-- `ScanHandler.HostsFromCIDR`. `parseAddr` is `netip.ParseAddr`, `ipString` is
`net.IP.String`; `none` = the fuel ran out in the enumeration loop. -/
def HostsFromCIDR (parseAddr : Str → Option Addr) (ipString : IP → Str) (fuel : Nat)
    (cidr : Str) : Option (Except NetError (List Str)) :=
  match ParseCIDR parseAddr cidr with
  | .error e => some (.error e)
  | .ok (ip, ipnet) =>
    match hostLoop ipString fuel ipnet (IP.Mask ip ipnet.Mask) [] with
    | none => none
    | some ips =>
      if ips.length > 2 then some (.ok ((ips.drop 1).take (ips.length - 2)))
      else some (.ok ips)

/-- One decimal field of a dotted IPv4 address as `netip.ParseAddr` reads it:
one to three digits, no leading zero, at most 255. -/
def parseOctet (f : Str) : Option Nat :=
  match f with
  | [] => none
  | c :: rest =>
    if c = '0' ∧ rest ≠ [] then none
    else
      match parseDigits f 0 with
      | none => none
      | some v => if v ≤ 255 then some v else none

/-- The IPv4 case of `netip.ParseAddr`: four decimal fields separated by `.`;
`none` for every other text. -/
def parseAddrV4 (s : Str) : Option Addr :=
  match (s.splitOn '.').map parseOctet with
  | [some a, some b, some c, some d] => some (.v4 a b c d)
  | _ => none

/-- Go `net.IP.String` on the 4-byte form: the bytes in decimal with dots. -/
def ipStringV4 (ip : IP) : Str :=
  ['.'].intercalate (ip.map (fun b => Itoa (b : Int)))

/-- The address with 32-bit value `n`, in 4-byte form. -/
def ip4OfNat (n : Nat) : IP :=
  [n / 16777216 % 256, n / 65536 % 256, n / 256 % 256, n % 256]

/-- The 32-bit value of four bytes. -/
def val4 (a b c d : Nat) : Nat :=
  a * 16777216 + b * 65536 + c * 256 + d

/-- Number of addresses of an IPv4 block with prefix length `p`. -/
def blockSize (p : Nat) : Nat := 2 ^ (32 - p)

/-- The first address, as a 32-bit value, of the block of prefix length `p`
that holds `a.b.c.d`: the host bits are cleared. -/
def network4 (a b c d p : Nat) : Nat :=
  val4 a b c d / blockSize p * blockSize p

/-! ## Proofs: `ParsePorts` -/

theorem wrap64_succ {i : Int} (h1 : minInt ≤ i) (h2 : i < maxInt) : wrap64 (i + 1) = i + 1 := by
  unfold wrap64 minInt maxInt at *
  omega

theorem wrap64_range (i : Int) : minInt ≤ wrap64 i ∧ wrap64 i ≤ maxInt := by
  unfold wrap64 minInt maxInt
  omega

theorem mem_mapSet {out : List Int} {i n : Int} : n ∈ mapSet out i ↔ n = i ∨ n ∈ out := by
  unfold mapSet
  split_ifs with h
  · constructor
    · intro hn; exact Or.inr hn
    · rintro (rfl | hn)
      · exact h
      · exact hn
  · simp

theorem nodup_mapSet {out : List Int} {i : Int} (h : out.Nodup) : (mapSet out i).Nodup := by
  unfold mapSet
  split_ifs with hi
  · exact h
  · exact List.nodup_cons.mpr ⟨hi, h⟩

/-- A range whose upper bound is the largest `int` never leaves its loop. -/
theorem rangeLoop_maxInt (fuel : Nat) : ∀ (i : Int) (out : List Int),
    i ≤ maxInt → rangeLoop fuel i maxInt out = none := by
  induction fuel with
  | zero => intro i out _; rfl
  | succ k ih =>
    intro i out hi
    simp only [rangeLoop, hi, if_true]
    exact ih _ _ (wrap64_range _).2

theorem rangeLoop_some (fuel : Nat) : ∀ (i hi : Int) (out res : List Int),
    minInt ≤ i → hi < maxInt → rangeLoop fuel i hi out = some res →
    (∀ n, n ∈ res ↔ n ∈ out ∨ (i ≤ n ∧ n ≤ hi)) ∧ (out.Nodup → res.Nodup) := by
  induction fuel with
  | zero => intro i hi out res _ _ h; simp [rangeLoop] at h
  | succ k ih =>
    intro i hi out res h1 h2 h
    simp only [rangeLoop] at h
    split_ifs at h with hle
    · rw [wrap64_succ h1 (by omega)] at h
      obtain ⟨hm, hn⟩ := ih (i + 1) hi _ res (by omega) h2 h
      refine ⟨fun n => ?_, fun hnd => hn (nodup_mapSet hnd)⟩
      rw [hm n, mem_mapSet]
      constructor
      · rintro ((rfl | h) | h)
        · exact Or.inr ⟨le_refl _, hle⟩
        · exact Or.inl h
        · exact Or.inr ⟨by omega, h.2⟩
      · rintro (h | ⟨h3, h4⟩)
        · exact Or.inl (Or.inr h)
        · by_cases hni : n = i
          · exact Or.inl (Or.inl hni)
          · exact Or.inr ⟨by omega, h4⟩
    · simp only [Option.some.injEq] at h
      subst h
      refine ⟨fun n => ?_, fun hnd => hnd⟩
      constructor
      · intro h; exact Or.inl h
      · rintro (h | ⟨h3, h4⟩)
        · exact h
        · omega

theorem rangeLoop_terminates (fuel : Nat) : ∀ (i hi : Int) (out : List Int),
    minInt ≤ i → hi < maxInt → i ≤ hi + 1 → hi + 1 - i < fuel →
    ∃ res, rangeLoop fuel i hi out = some res := by
  induction fuel with
  | zero => intro i hi out _ _ h0 h; omega
  | succ k ih =>
    intro i hi out h1 h2 h0 h3
    simp only [rangeLoop]
    split_ifs with hle
    · rw [wrap64_succ h1 (by omega)]
      exact ih (i + 1) hi _ (by omega) h2 (by omega) (by omega)
    · exact ⟨out, rfl⟩

theorem digitVal_isSome {c : Char} {d : Nat} (h : digitVal c = some d) : IsDigit c := by
  unfold digitVal at h
  split_ifs at h with hc
  exact hc

theorem digitVal_of_isDigit {c : Char} (h : IsDigit c) : digitVal c = some (c.toNat - 48) := by
  unfold digitVal
  exact if_pos h

theorem parseDigits_digits : ∀ (ds : Str) (acc n : Nat),
    parseDigits ds acc = some n → ∀ c ∈ ds, IsDigit c := by
  intro ds
  induction ds with
  | nil => intro acc n _ c hc; simp at hc
  | cons d ds ih =>
    intro acc n h c hc
    simp only [parseDigits] at h
    cases hd : digitVal d with
    | none => rw [hd] at h; simp at h
    | some v =>
      rw [hd] at h
      rcases List.mem_cons.mp hc with rfl | hc
      · exact digitVal_isSome hd
      · exact ih _ _ h c hc

theorem parseDigits_isSome : ∀ (ds : Str) (acc : Nat),
    (∀ c ∈ ds, IsDigit c) → ∃ n, parseDigits ds acc = some n := by
  intro ds
  induction ds with
  | nil => intro acc _; exact ⟨acc, rfl⟩
  | cons d ds ih =>
    intro acc h
    simp only [parseDigits]
    rw [digitVal_of_isDigit (h d (List.mem_cons_self _ _))]
    exact ih _ (fun c hc => h c (List.mem_cons_of_mem _ hc))

theorem parseUint_digits (s0 : Str) : ∀ (ds : Str) (acc n : Nat),
    parseUint s0 ds acc = .ok n → ∀ c ∈ ds, IsDigit c := by
  intro ds
  induction ds with
  | nil => intro acc n _ c hc; simp at hc
  | cons d ds ih =>
    intro acc n h c hc
    simp only [parseUint] at h
    cases hd : digitVal d with
    | none => rw [hd] at h; simp at h
    | some v =>
      rw [hd] at h
      simp only at h
      split_ifs at h with hov
      rcases List.mem_cons.mp hc with rfl | hc
      · exact digitVal_isSome hd
      · exact ih _ _ h c hc

theorem parseDigits_le : ∀ (ds : Str) (acc k : Nat), parseDigits ds acc = some k → acc ≤ k := by
  intro ds
  induction ds with
  | nil =>
    intro acc k h
    simp only [parseDigits, Option.some.injEq] at h
    omega
  | cons d ds ih =>
    intro acc k h
    simp only [parseDigits] at h
    cases hd : digitVal d with
    | none => rw [hd] at h; simp at h
    | some v =>
      rw [hd] at h
      have := ih _ _ h
      omega

/-- Below the range of `uint64` the digit loop of `ParseUint` computes the
decimal value. -/
theorem parseUint_of_parseDigits (s0 : Str) : ∀ (ds : Str) (acc k : Nat),
    parseDigits ds acc = some k → k < 18446744073709551616 → parseUint s0 ds acc = .ok k := by
  intro ds
  induction ds with
  | nil =>
    intro acc k h _
    simp only [parseDigits, Option.some.injEq] at h
    rw [parseUint, h]
  | cons d ds ih =>
    intro acc k h hk
    simp only [parseDigits] at h
    cases hd : digitVal d with
    | none => rw [hd] at h; simp at h
    | some v =>
      rw [hd] at h
      have hle := parseDigits_le _ _ _ h
      simp only [parseUint, hd]
      rw [if_neg (by omega)]
      exact ih _ _ h hk

/-- Shape of the strings `Atoi` accepts: non-empty, digits after the first
rune, and a value in the range of `int`. -/
theorem Atoi_ok {s : Str} {v : Int} (h : Atoi s = .ok v) :
    ∃ c rest, s = c :: rest ∧ (∀ d ∈ rest, IsDigit d) ∧ minInt ≤ v ∧ v ≤ maxInt := by
  cases s with
  | nil => simp [Atoi] at h
  | cons c rest =>
    refine ⟨c, rest, rfl, ?_⟩
    simp only [Atoi] at h
    by_cases hs : (c == '-' || c == '+') = true
    · rw [if_pos hs] at h
      cases rest with
      | nil => simp at h
      | cons r rs =>
        simp only at h
        cases hp : parseUint (c :: r :: rs) (r :: rs) 0 with
        | error e => rw [hp] at h; simp at h
        | ok n =>
          rw [hp] at h
          refine ⟨parseUint_digits _ _ _ _ hp, ?_⟩
          simp only at h
          unfold minInt maxInt
          split_ifs at h with h1 h2 h2
          · cases h; omega
          · cases h; omega
    · rw [if_neg hs] at h
      simp only at h
      cases hp : parseUint (c :: rest) (c :: rest) 0 with
      | error e => rw [hp] at h; simp at h
      | ok n =>
        rw [hp] at h
        refine ⟨fun d hd => parseUint_digits _ _ _ _ hp d (List.mem_cons_of_mem _ hd), ?_⟩
        simp only at h
        unfold minInt maxInt
        split_ifs at h with h1 h2 h2
        · cases h; omega
        · cases h; omega

theorem Atoi_nil_error : ∀ v, Atoi [] ≠ .ok v := by
  intro v h
  simp [Atoi] at h

theorem not_isDigit_dash : ¬ IsDigit '-' := by
  unfold IsDigit; decide

theorem not_isDigit_comma : ¬ IsDigit ',' := by
  unfold IsDigit; decide

theorem not_isSpace_dash : isSpace '-' = false := by decide

theorem not_isSpace_of_isDigit {c : Char} (h : IsDigit c) : isSpace c = false := by
  unfold IsDigit at h
  unfold isSpace
  simp only [Bool.or_eq_false_iff, Bool.and_eq_false_iff, decide_eq_false_iff_not, beq_eq_false_iff_ne]
  omega

theorem span_of_mem (sep : Char) : ∀ p : Str, sep ∈ p →
    ∃ r0 r1, p.span (fun c => c != sep) = (r0, sep :: r1) ∧ p = r0 ++ sep :: r1 ∧ sep ∉ r0 := by
  intro p
  induction p with
  | nil => intro h; simp at h
  | cons c cs ih =>
    intro h
    by_cases hc : c = sep
    · subst hc
      exact ⟨[], cs, by simp [List.span_eq_take_drop], rfl, by simp⟩
    · have hmem : sep ∈ cs := by
        rcases List.mem_cons.mp h with h | h
        · exact absurd h.symm hc
        · exact h
      obtain ⟨r0, r1, h1, h2, h3⟩ := ih hmem
      refine ⟨c :: r0, r1, ?_, by rw [h2]; rfl, ?_⟩
      · rw [List.span_eq_take_drop] at h1 ⊢
        have hcs : (c != sep) = true := by simpa using hc
        rw [List.takeWhile_cons, List.dropWhile_cons, if_pos hcs, if_pos hcs]
        rw [Prod.mk.injEq] at h1
        rw [h1.1, h1.2]
      · intro hm
        rcases List.mem_cons.mp hm with h | h
        · exact hc h.symm
        · exact h3 h

theorem SplitN2_of_mem {p : Str} {sep : Char} (h : sep ∈ p) :
    ∃ r0 r1, SplitN2 p sep = [r0, r1] ∧ p = r0 ++ sep :: r1 ∧ sep ∉ r0 := by
  obtain ⟨r0, r1, h1, h2, h3⟩ := span_of_mem sep p h
  exact ⟨r0, r1, by unfold SplitN2; rw [h1], h2, h3⟩

theorem Contains_iff {p : Str} {sep : Char} : Contains p sep = true ↔ sep ∈ p := by
  unfold Contains
  simp

/-- Two ways of cutting one string at a separator, the first of them at the
first separator: the cuts agree, or the second left part runs past the first. -/
theorem cut_unique (sep : Char) : ∀ (r0 r1 A B : Str), sep ∉ r0 →
    r0 ++ sep :: r1 = A ++ sep :: B → (A = r0 ∧ B = r1) ∨ ∃ X, A = r0 ++ sep :: X := by
  intro r0
  induction r0 with
  | nil =>
    intro r1 A B _ h
    cases A with
    | nil => left; simp at h; exact ⟨rfl, h.symm⟩
    | cons a A =>
      right
      simp only [List.nil_append, List.cons_append, List.cons.injEq] at h
      exact ⟨A, by rw [← h.1]; rfl⟩
  | cons c r0 ih =>
    intro r1 A B hn h
    have hc : c ≠ sep := fun hh => hn (by rw [hh]; exact List.mem_cons_self _ _)
    have hn0 : sep ∉ r0 := fun hh => hn (List.mem_cons_of_mem _ hh)
    cases A with
    | nil =>
      simp only [List.nil_append, List.cons_append, List.cons.injEq] at h
      exact absurd h.1 hc
    | cons a A =>
      simp only [List.cons_append, List.cons.injEq] at h
      rcases ih r1 A B hn0 h.2 with ⟨h1, h2⟩ | ⟨X, hX⟩
      · left; exact ⟨by rw [h1, h.1], h2⟩
      · right; exact ⟨X, by rw [hX, h.1]; rfl⟩

theorem rdropWhile_keep (q : Char → Bool) (l1 : Str) (x : Char) (hx : q x = false) :
    ∀ l2 : Str, ∃ l3, (l1 ++ x :: l2).rdropWhile q = l1 ++ x :: l3 := by
  intro l2
  induction l2 using List.reverseRecOn with
  | nil =>
    refine ⟨[], ?_⟩
    have : l1 ++ [x] = l1 ++ [x] := rfl
    rw [List.rdropWhile_concat_neg]
    simp [hx]
  | append_singleton l2 y ih =>
    obtain ⟨l3, h3⟩ := ih
    by_cases hy : q y = true
    · refine ⟨l3, ?_⟩
      have e : l1 ++ x :: (l2 ++ [y]) = (l1 ++ x :: l2) ++ [y] := by simp
      rw [e, List.rdropWhile_concat_pos _ _ _ hy, h3]
    · refine ⟨l2 ++ [y], ?_⟩
      have e : l1 ++ x :: (l2 ++ [y]) = (l1 ++ x :: l2) ++ [y] := by simp
      rw [e, List.rdropWhile_concat_neg _ _ _ hy]

/-- Trimming keeps everything from the first rune that is not a space up to a
later rune that is not a space. -/
theorem TrimSpace_keep {r0 X : Str} {x : Char} (hx : isSpace x = false)
    (h0 : TrimSpace r0 ≠ []) :
    ∃ c l1 l3, c ∈ r0 ∧ (∀ d ∈ l1, d ∈ r0) ∧ TrimSpace (r0 ++ x :: X) = c :: (l1 ++ x :: l3) := by
  unfold TrimSpace at h0 ⊢
  cases hd : r0.dropWhile isSpace with
  | nil => rw [hd] at h0; simp [List.rdropWhile] at h0
  | cons c l1 =>
    have hsub : ∀ d ∈ c :: l1, d ∈ r0 := by
      intro d hdm
      rw [← hd] at hdm
      exact (List.dropWhile_sublist _).subset hdm
    have hc : isSpace c = false := by
      have := List.head_dropWhile_not isSpace r0 (by rw [hd]; simp)
      simpa [hd] using this
    have happ : (r0 ++ x :: X).dropWhile isSpace = c :: (l1 ++ x :: X) := by
      have : r0 = r0.takeWhile isSpace ++ c :: l1 := by
        rw [← hd, List.takeWhile_append_dropWhile]
      rw [this, List.append_assoc, List.dropWhile_append_of_pos (fun d hdm => List.mem_takeWhile_imp hdm)]
      simp [List.dropWhile_cons, hc]
    obtain ⟨l3, h3⟩ := rdropWhile_keep isSpace (c :: l1) x hx X
    refine ⟨c, l1, l3, hsub c (List.mem_cons_self _ _),
      fun d hdm => hsub d (List.mem_cons_of_mem _ hdm), ?_⟩
    rw [happ]
    simpa using h3

/-! ### Unfolding `parseLoop` by the kind of the next token -/

theorem parseLoop_cons_empty (fuel : Nat) (p0 : Str) (ps : List Str) (out : List Int)
    (h : TrimSpace p0 = []) : parseLoop fuel (p0 :: ps) out = parseLoop fuel ps out := by
  simp only [parseLoop, h, if_true]

theorem parseLoop_cons_single (fuel : Nat) (p0 : Str) (ps : List Str) (out : List Int)
    (h : TrimSpace p0 ≠ []) (hd : '-' ∉ TrimSpace p0) :
    parseLoop fuel (p0 :: ps) out =
      match Atoi (TrimSpace p0) with
      | .error e => some (.error e)
      | .ok v => parseLoop fuel ps (mapSet out v) := by
  have hc : ¬ (Contains (TrimSpace p0) '-' = true) := fun hh => hd (Contains_iff.mp hh)
  simp only [parseLoop, if_neg h, if_neg hc]

theorem parseLoop_cons_range (fuel : Nat) (p0 : Str) (ps : List Str) (out : List Int)
    (r0 r1 : Str) (h : TrimSpace p0 = r0 ++ '-' :: r1) (hd : '-' ∉ r0) :
    parseLoop fuel (p0 :: ps) out =
      match Atoi (TrimSpace r0) with
      | .error e => some (.error e)
      | .ok lo =>
        match Atoi (TrimSpace r1) with
        | .error e => some (.error e)
        | .ok hi =>
          match rangeLoop fuel (min lo hi) (max lo hi) out with
          | none => none
          | some out1 => parseLoop fuel ps out1 := by
  have hne : TrimSpace p0 ≠ [] := by rw [h]; simp
  have hmem : '-' ∈ TrimSpace p0 := by rw [h]; simp
  obtain ⟨a, b, hs, hab, ha⟩ := SplitN2_of_mem hmem
  have hcut := cut_unique '-' r0 r1 a b hd (by rw [← h, ← hab])
  have hab2 : a = r0 ∧ b = r1 := by
    rcases hcut with h1 | ⟨X, hX⟩
    · exact h1
    · exact absurd (by rw [hX]; simp) ha
  rw [hab2.1, hab2.2] at hs
  simp only [parseLoop, if_neg hne, if_pos (Contains_iff.mpr hmem), hs]
  cases Atoi (TrimSpace r0) with
  | error e => rfl
  | ok lo =>
    cases Atoi (TrimSpace r1) with
    | error e => rfl
    | ok hi =>
      simp only
      have h1 : (if lo > hi then hi else lo) = min lo hi := by
        split_ifs with hh
        · exact (min_eq_right (le_of_lt hh)).symm
        · exact (min_eq_left (not_lt.mp hh)).symm
      have h2 : (if lo > hi then lo else hi) = max lo hi := by
        split_ifs with hh
        · exact (max_eq_left (le_of_lt hh)).symm
        · exact (max_eq_right (not_lt.mp hh)).symm
      rw [h1, h2]

/-! ### The specification reading of a token against the code's reading -/

theorem not_specTokenHas_nil (n : Int) : ¬ SpecTokenHas [] n := by
  rintro (h | ⟨A, B, a, b, h, _⟩)
  · exact Atoi_nil_error n h
  · simp at h

theorem specTokenHas_single {p : Str} {v : Int} (hd : '-' ∉ p) (hv : Atoi p = .ok v) (n : Int) :
    SpecTokenHas p n ↔ n = v := by
  constructor
  · rintro (h | ⟨A, B, a, b, h, _⟩)
    · rw [hv] at h
      cases h
      rfl
    · exact absurd (by rw [h]; simp) hd
  · rintro rfl
    exact Or.inl hv

theorem Atoi_error_of_dash_inside {c : Char} {l1 l3 : Str} (v : Int) :
    Atoi (c :: (l1 ++ '-' :: l3)) ≠ .ok v := by
  intro h
  obtain ⟨c1, rest, he, hr, _⟩ := Atoi_ok h
  simp only [List.cons.injEq] at he
  exact not_isDigit_dash (hr '-' (by rw [← he.2]; simp))

theorem specTokenHas_range {r0 r1 : Str} {lo hi : Int} (hd : '-' ∉ r0)
    (hlo : Atoi (TrimSpace r0) = .ok lo) (hhi : Atoi (TrimSpace r1) = .ok hi) (n : Int) :
    SpecTokenHas (r0 ++ '-' :: r1) n ↔ min lo hi ≤ n ∧ n ≤ max lo hi := by
  have hne : TrimSpace r0 ≠ [] := fun hh => Atoi_nil_error lo (by rw [← hh]; exact hlo)
  constructor
  · rintro (h | ⟨A, B, a, b, h, ha, hb, h1, h2⟩)
    · exfalso
      cases r0 with
      | nil => exact hne rfl
      | cons c r0 => exact Atoi_error_of_dash_inside n h
    · rcases cut_unique '-' r0 r1 A B hd h with ⟨hA, hB⟩ | ⟨X, hX⟩
      · rw [hA, hlo] at ha
        rw [hB, hhi] at hb
        cases ha
        cases hb
        exact ⟨h1, h2⟩
      · exfalso
        obtain ⟨c, l1, l3, _, _, ht⟩ := TrimSpace_keep (X := X) not_isSpace_dash hne
        rw [hX, ht] at ha
        exact Atoi_error_of_dash_inside a ha
  · rintro ⟨h1, h2⟩
    exact Or.inr ⟨r0, r1, lo, hi, rfl, hlo, hhi, h1, h2⟩

/-- What a successful run of the token loop has put into the map. -/
theorem parseLoop_ok (fuel : Nat) : ∀ (ps : List Str) (out res : List Int),
    parseLoop fuel ps out = some (.ok res) →
    (∀ n, n ∈ res ↔ n ∈ out ∨ ∃ tok ∈ ps, SpecTokenHas (TrimSpace tok) n) ∧
    (out.Nodup → res.Nodup) := by
  intro ps
  induction ps with
  | nil =>
    intro out res h
    simp only [parseLoop, Option.some.injEq, Except.ok.injEq] at h
    subst h
    simp
  | cons p0 ps ih =>
    intro out res h
    by_cases he : TrimSpace p0 = []
    · rw [parseLoop_cons_empty fuel p0 ps out he] at h
      obtain ⟨hm, hn⟩ := ih out res h
      refine ⟨fun n => ?_, hn⟩
      rw [hm n]
      simp only [List.mem_cons, exists_eq_or_imp, he]
      rw [or_iff_right (not_specTokenHas_nil n)]
    · by_cases hd : '-' ∈ TrimSpace p0
      · obtain ⟨r0, r1, _, hab, ha⟩ := SplitN2_of_mem hd
        rw [parseLoop_cons_range fuel p0 ps out r0 r1 hab ha] at h
        cases hlo : Atoi (TrimSpace r0) with
        | error e => rw [hlo] at h; simp at h
        | ok lo =>
          cases hhi : Atoi (TrimSpace r1) with
          | error e => rw [hlo, hhi] at h; simp at h
          | ok hi =>
            rw [hlo, hhi] at h
            simp only at h
            cases hr : rangeLoop fuel (min lo hi) (max lo hi) out with
            | none => rw [hr] at h; simp at h
            | some out1 =>
              rw [hr] at h
              simp only at h
              obtain ⟨_, _, _, _, hlo1, hlo2⟩ := Atoi_ok hlo
              obtain ⟨_, _, _, _, hhi1, hhi2⟩ := Atoi_ok hhi
              have hmax : max lo hi ≠ maxInt := by
                intro hh
                rw [hh, rangeLoop_maxInt fuel _ _ (min_le_of_left_le hlo2)] at hr
                simp at hr
              have hmax2 : max lo hi < maxInt :=
                lt_of_le_of_ne (max_le hlo2 hhi2) hmax
              obtain ⟨hm1, hn1⟩ := rangeLoop_some fuel _ _ out out1 (le_min hlo1 hhi1) hmax2 hr
              obtain ⟨hm, hn⟩ := ih out1 res h
              refine ⟨fun n => ?_, fun hnd => hn (hn1 hnd)⟩
              rw [hm n, hm1 n]
              simp only [List.mem_cons, exists_eq_or_imp, hab]
              rw [specTokenHas_range ha hlo hhi n]
              exact or_assoc
      · rw [parseLoop_cons_single fuel p0 ps out he hd] at h
        cases hv : Atoi (TrimSpace p0) with
        | error e => rw [hv] at h; simp at h
        | ok v =>
          rw [hv] at h
          simp only at h
          obtain ⟨hm, hn⟩ := ih _ res h
          refine ⟨fun n => ?_, fun hnd => hn (nodup_mapSet hnd)⟩
          rw [hm n, mem_mapSet]
          simp only [List.mem_cons, exists_eq_or_imp]
          rw [specTokenHas_single hd hv n]
          rw [or_comm (a := n = v), or_assoc]

theorem sortInts_sorted {out : List Int} (h : out.Nodup) : (sortInts out).Sorted (· < ·) := by
  unfold sortInts
  have h1 : (out.insertionSort (fun a b => a ≤ b)).Sorted (· ≤ ·) :=
    List.sorted_insertionSort (fun a b : Int => a ≤ b) out
  have h2 : (out.insertionSort (fun a b => a ≤ b)).Nodup :=
    (List.perm_insertionSort (fun a b : Int => a ≤ b) out).nodup_iff.mpr h
  exact h1.lt_of_le h2

theorem mem_sortInts {out : List Int} {n : Int} : n ∈ sortInts out ↔ n ∈ out :=
  (List.perm_insertionSort (fun a b : Int => a ≤ b) out).mem_iff

theorem sortInts_of_sorted {L : List Int} (h : L.Sorted (· < ·)) : sortInts L = L := by
  unfold sortInts
  exact List.Sorted.insertionSort_eq (h.imp (fun hab => le_of_lt hab))

theorem ParsePorts_ok_iff {fuel : Nat} {s : Str} {L : List Int} :
    ParsePorts fuel s = some (.ok L) ↔
      ∃ out, parseLoop fuel (Split s ',') [] = some (.ok out) ∧ L = sortInts out := by
  unfold ParsePorts
  cases parseLoop fuel (Split s ',') [] with
  | none => simp
  | some r =>
    cases r with
    | error e => simp
    | ok out =>
      simp only [Option.some.injEq, Except.ok.injEq, exists_eq_left']
      exact eq_comm

set_option maxRecDepth 100000 in
/-- C1. Whenever `ParsePorts` succeeds, the list it returns is strictly
ascending, and an integer is in it exactly when some comma-separated token of
the input, trimmed, is that integer or is a range `a-b` whose bounds, in either
order, enclose it. `"80,22,1000-1002"` gives `[22,80,1000,1001,1002]` and
`"100-50"` gives `[50,...,100]`. -/
theorem ParsePorts_sorted_set :
    (∀ (fuel : Nat) (s : Str) (L : List Int), ParsePorts fuel s = some (.ok L) →
      L.Sorted (· < ·) ∧
      ∀ n, n ∈ L ↔ ∃ tok ∈ Split s ',', SpecTokenHas (TrimSpace tok) n) ∧
    ParsePorts 8 "80,22,1000-1002".toList = some (.ok [22, 80, 1000, 1001, 1002]) ∧
    ParsePorts 64 "100-50".toList = some (.ok ((List.range' 50 51).map Int.ofNat)) := by
  refine ⟨?_, by decide, by decide⟩
  intro fuel s L h
  obtain ⟨out, hp, rfl⟩ := ParsePorts_ok_iff.mp h
  obtain ⟨hm, hn⟩ := parseLoop_ok fuel _ [] out hp
  refine ⟨sortInts_sorted (hn List.nodup_nil), fun n => ?_⟩
  rw [mem_sortInts, hm n]
  simp

/-- Witness for C1 on the input `"80,22,1000-1002"`. -/
theorem ParsePorts_sorted_set_witness :
    ParsePorts 8 "80,22,1000-1002".toList = some (.ok [22, 80, 1000, 1001, 1002]) ∧
    ([22, 80, 1000, 1001, 1002] : List Int).Sorted (· < ·) ∧
    ∀ n, n ∈ ([22, 80, 1000, 1001, 1002] : List Int) ↔
      ∃ tok ∈ Split "80,22,1000-1002".toList ',', SpecTokenHas (TrimSpace tok) n :=
  ⟨by decide, ParsePorts_sorted_set.1 8 "80,22,1000-1002".toList _ (by decide)⟩

/-! ### Rejected inputs -/

theorem not_tokenRejected_single {p : Str} {v : Int} (hd : '-' ∉ p) (hv : Atoi p = .ok v) :
    ¬ TokenRejected p := by
  rintro ⟨_, ⟨_, h⟩ | ⟨A, B, h, _⟩⟩
  · exact h v hv
  · exact hd (by rw [h]; simp)

theorem tokenRejected_range {r0 r1 : Str} (hd : '-' ∉ r0) :
    TokenRejected (r0 ++ '-' :: r1) ↔
      ¬ ∃ a b, Atoi (TrimSpace r0) = .ok a ∧ Atoi (TrimSpace r1) = .ok b := by
  constructor
  · rintro ⟨_, ⟨h, _⟩ | ⟨A, B, h, hA, hn⟩⟩
    · exact absurd (by simp) h
    · rcases cut_unique '-' r0 r1 A B hd h with ⟨h1, h2⟩ | ⟨X, hX⟩
      · rw [h1, h2] at hn
        exact hn
      · exact absurd (by rw [hX]; simp) hA
  · intro h
    exact ⟨by simp, Or.inr ⟨r0, r1, rfl, hd, h⟩⟩

/-- When the token loop returns, it returns an error exactly when it met a
rejected token. -/
theorem parseLoop_error_iff (fuel : Nat) : ∀ (ps : List Str) (out : List Int)
    (r : Except ParseError (List Int)), parseLoop fuel ps out = some r →
    ((∃ e, r = .error e) ↔ ∃ tok ∈ ps, TokenRejected (TrimSpace tok)) := by
  intro ps
  induction ps with
  | nil =>
    intro out r h
    simp only [parseLoop, Option.some.injEq] at h
    subst h
    simp
  | cons p0 ps ih =>
    intro out r h
    simp only [List.mem_cons, exists_eq_or_imp]
    by_cases he : TrimSpace p0 = []
    · rw [parseLoop_cons_empty fuel p0 ps out he] at h
      rw [ih out r h, he]
      exact (or_iff_right (fun hh : TokenRejected [] => hh.1 rfl)).symm
    · by_cases hd : '-' ∈ TrimSpace p0
      · obtain ⟨r0, r1, _, hab, ha⟩ := SplitN2_of_mem hd
        rw [parseLoop_cons_range fuel p0 ps out r0 r1 hab ha] at h
        rw [hab, tokenRejected_range ha]
        cases hlo : Atoi (TrimSpace r0) with
        | error e =>
          rw [hlo] at h
          simp only [Option.some.injEq] at h
          subst h
          simp
        | ok lo =>
          cases hhi : Atoi (TrimSpace r1) with
          | error e =>
            rw [hlo, hhi] at h
            simp only [Option.some.injEq] at h
            subst h
            simp
          | ok hi =>
            rw [hlo, hhi] at h
            simp only at h
            cases hr : rangeLoop fuel (min lo hi) (max lo hi) out with
            | none => rw [hr] at h; simp at h
            | some out1 =>
              rw [hr] at h
              simp only at h
              rw [ih out1 r h]
              simp
      · rw [parseLoop_cons_single fuel p0 ps out he hd] at h
        cases hv : Atoi (TrimSpace p0) with
        | error e =>
          rw [hv] at h
          simp only [Option.some.injEq] at h
          subst h
          have : TokenRejected (TrimSpace p0) :=
            ⟨he, Or.inl ⟨hd, fun v hh => by rw [hv] at hh; cases hh⟩⟩
          simp [this]
        | ok v =>
          rw [hv] at h
          simp only at h
          rw [ih _ r h]
          exact (or_iff_right (not_tokenRejected_single hd hv)).symm

/-- With fuel for the longest possible range, the token loop returns unless a
range that runs to the largest `int` comes before every rejected token. -/
theorem parseLoop_returns (fuel : Nat) (hf : 18446744073709551616 ≤ fuel) :
    ∀ (ps : List Str) (out : List Int),
    (∀ pre tok post, ps = pre ++ tok :: post → TokenRunsToMax (TrimSpace tok) →
      ∃ t ∈ pre, TokenRejected (TrimSpace t)) →
    ∃ r, parseLoop fuel ps out = some r := by
  intro ps
  induction ps with
  | nil => intro out _; exact ⟨_, rfl⟩
  | cons p0 ps ih =>
    intro out hyp
    have hhead : ¬ TokenRunsToMax (TrimSpace p0) := by
      intro h
      obtain ⟨t, ht, _⟩ := hyp [] p0 ps rfl h
      simp at ht
    have htail : ¬ TokenRejected (TrimSpace p0) →
        ∀ pre tok post, ps = pre ++ tok :: post → TokenRunsToMax (TrimSpace tok) →
          ∃ t ∈ pre, TokenRejected (TrimSpace t) := by
      intro hnr pre tok post hps hr
      obtain ⟨t, ht, htr⟩ := hyp (p0 :: pre) tok post (by rw [hps]; rfl) hr
      rcases List.mem_cons.mp ht with rfl | ht
      · exact absurd htr hnr
      · exact ⟨t, ht, htr⟩
    by_cases he : TrimSpace p0 = []
    · rw [parseLoop_cons_empty fuel p0 ps out he]
      exact ih out (htail (fun hh => hh.1 he))
    · by_cases hd : '-' ∈ TrimSpace p0
      · obtain ⟨r0, r1, _, hab, ha⟩ := SplitN2_of_mem hd
        rw [parseLoop_cons_range fuel p0 ps out r0 r1 hab ha]
        cases hlo : Atoi (TrimSpace r0) with
        | error e => exact ⟨_, rfl⟩
        | ok lo =>
          cases hhi : Atoi (TrimSpace r1) with
          | error e => exact ⟨_, rfl⟩
          | ok hi =>
            simp only
            obtain ⟨_, _, _, _, hlo1, hlo2⟩ := Atoi_ok hlo
            obtain ⟨_, _, _, _, hhi1, hhi2⟩ := Atoi_ok hhi
            have hlt : max lo hi < maxInt :=
              lt_of_le_of_ne (max_le hlo2 hhi2)
                (fun hh => hhead ⟨r0, r1, lo, hi, hab, ha, hlo, hhi, hh⟩)
            have hmin : minInt ≤ min lo hi := le_min hlo1 hhi1
            have hmm : min lo hi ≤ max lo hi := min_le_max
            obtain ⟨out1, h1⟩ := rangeLoop_terminates fuel (min lo hi) (max lo hi) out hmin hlt
              (by omega) (by unfold minInt maxInt at *; omega)
            rw [h1]
            refine ih out1 (htail ?_)
            rw [hab, tokenRejected_range ha]
            exact fun hh => hh ⟨lo, hi, hlo, hhi⟩
      · rw [parseLoop_cons_single fuel p0 ps out he hd]
        cases hv : Atoi (TrimSpace p0) with
        | error e => exact ⟨_, rfl⟩
        | ok v => exact ih _ (htail (not_tokenRejected_single hd hv))

theorem ParsePorts_some_iff {fuel : Nat} {s : Str} {r : Except ParseError (List Int)} :
    ParsePorts fuel s = some r →
      ∃ r0, parseLoop fuel (Split s ',') [] = some r0 ∧ ((∃ e, r = .error e) ↔ ∃ e, r0 = .error e) := by
  unfold ParsePorts
  cases parseLoop fuel (Split s ',') [] with
  | none => simp
  | some r0 =>
    cases r0 with
    | error e => intro h; cases h; exact ⟨_, rfl, Iff.rfl⟩
    | ok out => intro h; cases h; exact ⟨_, rfl, by simp⟩

/-- C6, as the code has it. Whenever `ParsePorts` returns, it returns an error
exactly when some comma-separated token, trimmed, is non-empty and either has
no `-` and is not an integer, or has a `-` and the trimmed parts before and
after its first `-` are not both integers. It returns on every input in which
no range with the largest `int` as its larger bound comes before the first
rejected token. `"80,abc"`, `"1-2-3"` and `"abc,1-9223372036854775807"` are
rejected; `"80,,22"`, `" 80 , 10 - 12 "` and `"9223372036854775807"` are
accepted. -/
theorem ParsePorts_error_iff :
    (∀ (fuel : Nat) (s : Str) (r : Except ParseError (List Int)),
      ParsePorts fuel s = some r →
        ((∃ e, r = .error e) ↔ ∃ tok ∈ Split s ',', TokenRejected (TrimSpace tok))) ∧
    (∀ s : Str,
      (∀ pre tok post, Split s ',' = pre ++ tok :: post → TokenRunsToMax (TrimSpace tok) →
        ∃ t ∈ pre, TokenRejected (TrimSpace t)) →
      ∃ r, ParsePorts 18446744073709551616 s = some r) ∧
    (∀ fuel, ParsePorts fuel "80,abc".toList = some (.error (.syntaxErr "abc".toList))) ∧
    (∀ fuel, ParsePorts fuel "1-2-3".toList = some (.error (.syntaxErr "2-3".toList))) ∧
    (∀ fuel, ParsePorts fuel "abc,1-9223372036854775807".toList =
      some (.error (.syntaxErr "abc".toList))) ∧
    ParsePorts 8 "80,,22".toList = some (.ok [22, 80]) ∧
    ParsePorts 8 " 80 , 10 - 12 ".toList = some (.ok [10, 11, 12, 80]) ∧
    (∀ fuel, ParsePorts fuel "9223372036854775807".toList =
      some (.ok [9223372036854775807])) := by
  refine ⟨?_, ?_, fun _ => rfl, fun _ => rfl, fun _ => rfl, by decide, by decide, fun _ => rfl⟩
  · intro fuel s r h
    obtain ⟨r0, h0, hiff⟩ := ParsePorts_some_iff h
    rw [hiff]
    exact parseLoop_error_iff fuel _ _ r0 h0
  · intro s hyp
    obtain ⟨r0, h0⟩ := parseLoop_returns _ (le_refl _) (Split s ',') [] hyp
    unfold ParsePorts
    rw [h0]
    cases r0 with
    | error e => exact ⟨_, rfl⟩
    | ok out => exact ⟨_, rfl⟩

theorem not_specTokenHas_of_error {p : Str} (hd : '-' ∉ p) (he : ∀ v, Atoi p ≠ .ok v) (n : Int) :
    ¬ SpecTokenHas p n := by
  rintro (h | ⟨A, B, a, b, h, _⟩)
  · exact he n h
  · exact hd (by rw [h]; simp)

theorem not_tokenRunsToMax_of_no_dash {p : Str} (hd : '-' ∉ p) : ¬ TokenRunsToMax p := by
  rintro ⟨A, B, a, b, h, _⟩
  exact hd (by rw [h]; simp)

/-- Witness for C6 (amended) on the input `"abc,1-9223372036854775807"`: the
rejected token `abc` comes before the range that runs to the largest `int`. -/
theorem ParsePorts_error_iff_witness :
    (∀ pre tok post, Split "abc,1-9223372036854775807".toList ',' = pre ++ tok :: post →
      TokenRunsToMax (TrimSpace tok) → ∃ t ∈ pre, TokenRejected (TrimSpace t)) ∧
    (∃ r, ParsePorts 18446744073709551616 "abc,1-9223372036854775807".toList = some r) ∧
    ((∃ e, (.error (.syntaxErr "abc".toList) : Except ParseError (List Int)) = .error e) ↔
      ∃ tok ∈ Split "abc,1-9223372036854775807".toList ',', TokenRejected (TrimSpace tok)) :=
  have hrej : TokenRejected (TrimSpace "abc".toList) := by
    have ht : TrimSpace "abc".toList = "abc".toList := by decide
    rw [ht]
    refine ⟨by decide, Or.inl ⟨by decide, fun v hv => ?_⟩⟩
    have e : Atoi "abc".toList = .error (.syntaxErr "abc".toList) := by decide
    rw [e] at hv
    cases hv
  have h : ∀ pre tok post, Split "abc,1-9223372036854775807".toList ',' = pre ++ tok :: post →
      TokenRunsToMax (TrimSpace tok) → ∃ t ∈ pre, TokenRejected (TrimSpace t) := by
    intro pre tok post hs hr
    have hsp : Split "abc,1-9223372036854775807".toList ',' =
        ["abc".toList, "1-9223372036854775807".toList] := by decide
    rw [hsp] at hs
    cases pre with
    | nil =>
      simp only [List.nil_append, List.cons.injEq] at hs
      rw [← hs.1] at hr
      exact absurd hr (not_tokenRunsToMax_of_no_dash (by decide))
    | cons t pre =>
      simp only [List.cons_append, List.cons.injEq] at hs
      refine ⟨t, List.mem_cons_self _ _, ?_⟩
      rw [← hs.1]
      exact hrej
  ⟨h, ParsePorts_error_iff.2.1 "abc,1-9223372036854775807".toList h,
    ParsePorts_error_iff.1 8 "abc,1-9223372036854775807".toList _ rfl⟩

/-- C6 as stated fails on `"-5"`: the token is an integer that `Atoi` accepts,
so the specification does not reject the input, yet `ParsePorts` returns an
error, since it reads every token with a `-` as a range. -/
theorem ParsePorts_rejects_signed_integer :
    (∀ fuel, ParsePorts fuel "-5".toList = some (.error (.syntaxErr []))) ∧
    Atoi "-5".toList = .ok (-5) ∧
    ¬ SpecRejects "-5".toList := by
  refine ⟨fun _ => rfl, by decide, ?_⟩
  rintro ⟨tok, htok, _, hv⟩
  have hs : Split "-5".toList ',' = ["-5".toList] := by decide
  rw [hs] at htok
  simp only [List.mem_singleton] at htok
  subst htok
  apply hv
  have ht : TrimSpace "-5".toList = "-5".toList := by decide
  rw [ht]
  exact Or.inl ⟨-5, by decide⟩

/-! ### Rendering and re-parsing -/

theorem digitVal_ofNat (n : Nat) : digitVal (Char.ofNat (48 + n % 10)) = some (n % 10) := by
  have h : n % 10 < 10 := Nat.mod_lt _ (by decide)
  generalize n % 10 = m at h
  interval_cases m <;> decide

theorem natDigits_digits : ∀ (fuel n : Nat) (acc : Str), (∀ c ∈ acc, IsDigit c) →
    ∀ c ∈ natDigits fuel n acc, IsDigit c := by
  intro fuel
  induction fuel with
  | zero => intro n acc h c hc; exact h c hc
  | succ k ih =>
    intro n acc h c hc
    have hacc : ∀ c ∈ Char.ofNat (48 + n % 10) :: acc, IsDigit c := by
      intro d hd
      rcases List.mem_cons.mp hd with rfl | hd
      · exact digitVal_isSome (digitVal_ofNat n)
      · exact h d hd
    simp only [natDigits] at hc
    split_ifs at hc with h0
    · exact hacc c hc
    · exact ih _ _ hacc c hc

theorem natDigits_ne_nil : ∀ (fuel n : Nat) (acc : Str), natDigits (fuel + 1) n acc ≠ [] := by
  intro fuel
  induction fuel with
  | zero =>
    intro n acc
    simp only [natDigits]
    split_ifs <;> simp
  | succ k ih =>
    intro n acc
    rw [natDigits]
    split_ifs
    · simp
    · exact ih _ _

theorem parseDigits_natDigits : ∀ (fuel n : Nat) (acc : Str), n < fuel →
    parseDigits (natDigits fuel n acc) 0 = parseDigits acc n := by
  intro fuel
  induction fuel with
  | zero => intro n acc h; omega
  | succ k ih =>
    intro n acc h
    simp only [natDigits]
    split_ifs with h0
    · simp only [parseDigits, digitVal_ofNat]
      congr 1
      omega
    · rw [ih (n / 10) _ (by omega)]
      simp only [parseDigits, digitVal_ofNat]
      congr 1
      omega

theorem Atoi_of_digits {s : Str} {k : Nat} (hne : s ≠ []) (hd : ∀ c ∈ s, IsDigit c)
    (hp : parseDigits s 0 = some k) (hk : k < 9223372036854775808) : Atoi s = .ok (k : Int) := by
  cases s with
  | nil => exact absurd rfl hne
  | cons c rest =>
    have hc := hd c (List.mem_cons_self _ _)
    have h1 : (c == '-') = false := by
      rw [beq_eq_false_iff_ne]
      rintro rfl
      exact not_isDigit_dash hc
    have h2 : (c == '+') = false := by
      rw [beq_eq_false_iff_ne]
      rintro rfl
      revert hc
      unfold IsDigit
      decide
    have hu := parseUint_of_parseDigits (c :: rest) (c :: rest) 0 k hp (by omega)
    simp only [Atoi, h1, h2, Bool.or_self, Bool.false_eq_true, if_false, hu, if_pos hk]

theorem Itoa_nonneg {n : Int} (h0 : 0 ≤ n) (h1 : n ≤ maxInt) :
    Itoa n ≠ [] ∧ (∀ c ∈ Itoa n, IsDigit c) ∧ Atoi (Itoa n) = .ok n := by
  have hI : Itoa n = natDigits (n.natAbs + 1) n.natAbs [] := by
    unfold Itoa
    rw [if_neg (not_lt.mpr h0)]
  have hd : ∀ c ∈ Itoa n, IsDigit c := by
    rw [hI]
    exact natDigits_digits _ _ _ (by simp)
  have hne : Itoa n ≠ [] := by
    rw [hI]
    exact natDigits_ne_nil _ _ _
  refine ⟨hne, hd, ?_⟩
  have hp : parseDigits (Itoa n) 0 = some n.natAbs := by
    rw [hI, parseDigits_natDigits _ _ _ (Nat.lt_succ_self _)]
    rfl
  have hk : n.natAbs < 9223372036854775808 := by
    unfold maxInt at h1
    omega
  have := Atoi_of_digits hne hd hp hk
  rw [this]
  congr 1
  omega

theorem TrimSpace_of_digits {s : Str} (hd : ∀ c ∈ s, IsDigit c) : TrimSpace s = s := by
  unfold TrimSpace
  have h1 : s.dropWhile isSpace = s := by
    cases s with
    | nil => rfl
    | cons c cs =>
      rw [List.dropWhile_cons, not_isSpace_of_isDigit (hd c (List.mem_cons_self _ _))]
      simp
  rw [h1, List.rdropWhile_eq_self_iff]
  intro hne
  rw [not_isSpace_of_isDigit (hd _ (List.getLast_mem hne))]
  simp

/-- The token loop over the decimal renderings of non-negative integers stores
each of them. -/
theorem parseLoop_Itoa (fuel : Nat) : ∀ (L out : List Int),
    (∀ n ∈ L, 0 ≤ n ∧ n ≤ maxInt) →
    parseLoop fuel (L.map Itoa) out = some (.ok (L.foldl mapSet out)) := by
  intro L
  induction L with
  | nil => intro out _; rfl
  | cons n L ih =>
    intro out h
    obtain ⟨h0, h1⟩ := h n (List.mem_cons_self _ _)
    obtain ⟨hne, hd, ha⟩ := Itoa_nonneg h0 h1
    have ht := TrimSpace_of_digits hd
    rw [List.map_cons, parseLoop_cons_single fuel _ _ _ (by rw [ht]; exact hne)
      (by rw [ht]; exact fun hh => not_isDigit_dash (hd _ hh)), ht, ha]
    simp only [List.foldl_cons]
    exact ih _ (fun m hm => h m (List.mem_cons_of_mem _ hm))

theorem foldl_mapSet : ∀ (L out : List Int),
    (∀ n, n ∈ L.foldl mapSet out ↔ n ∈ out ∨ n ∈ L) ∧ (out.Nodup → (L.foldl mapSet out).Nodup) := by
  intro L
  induction L with
  | nil => intro out; simp
  | cons a L ih =>
    intro out
    obtain ⟨hm, hn⟩ := ih (mapSet out a)
    refine ⟨fun n => ?_, fun h => hn (nodup_mapSet h)⟩
    rw [List.foldl_cons, hm n, mem_mapSet, List.mem_cons, or_comm (a := n = a), or_assoc]

theorem Split_joinComma_Itoa (L : List Int) (h : ∀ n ∈ L, 0 ≤ n ∧ n ≤ maxInt) (hne : L ≠ []) :
    Split (joinComma (L.map Itoa)) ',' = L.map Itoa := by
  unfold Split joinComma
  apply List.splitOn_intercalate
  · intro l hl
    obtain ⟨n, hn, rfl⟩ := List.mem_map.mp hl
    exact fun hh => not_isDigit_comma ((Itoa_nonneg (h n hn).1 (h n hn).2).2.1 _ hh)
  · simpa using hne

theorem specTokenHas_bounds {p : Str} {n : Int} (h : SpecTokenHas p n) :
    minInt ≤ n ∧ n ≤ maxInt := by
  rcases h with h | ⟨A, B, a, b, _, ha, hb, h1, h2⟩
  · obtain ⟨_, _, _, _, h1, h2⟩ := Atoi_ok h
    exact ⟨h1, h2⟩
  · obtain ⟨_, _, _, _, ha1, ha2⟩ := Atoi_ok ha
    obtain ⟨_, _, _, _, hb1, hb2⟩ := Atoi_ok hb
    exact ⟨le_trans (le_min ha1 hb1) h1, le_trans h2 (max_le ha2 hb2)⟩

theorem sortInts_foldl_mapSet {L : List Int} (h : L.Sorted (· < ·)) :
    sortInts (L.foldl mapSet []) = L := by
  obtain ⟨hm, hn⟩ := foldl_mapSet L []
  have hnd : (L.foldl mapSet []).Nodup := hn List.nodup_nil
  have hperm : List.Perm (sortInts (L.foldl mapSet [])) L := by
    refine (List.perm_insertionSort (fun a b : Int => a ≤ b) _).trans ?_
    refine (List.perm_ext_iff_of_nodup hnd h.nodup).mpr (fun n => ?_)
    rw [hm n]
    simp
  have hs1 : (sortInts (L.foldl mapSet [])).Sorted (· ≤ ·) :=
    List.sorted_insertionSort (fun a b : Int => a ≤ b) _
  exact List.eq_of_perm_of_sorted hperm hs1 (h.imp (fun hab => le_of_lt hab))

/-- C8, as the code has it. When `ParsePorts` succeeds with a result `L` that has
no negative element, parsing the decimal renderings of the elements of `L`
joined by commas succeeds as well, with any fuel, and returns `L` (also for empty `L`). -/
theorem ParsePorts_reparse (fuel : Nat) (s : Str) (L : List Int)
    (h : ParsePorts fuel s = some (.ok L)) (hpos : ∀ n ∈ L, 0 ≤ n) :
    ∀ fuel2, ParsePorts fuel2 (joinComma (L.map Itoa)) = some (.ok L) := by
  intro fuel2
  obtain ⟨out, hp, hL⟩ := ParsePorts_ok_iff.mp h
  obtain ⟨hm, hn⟩ := parseLoop_ok fuel _ [] out hp
  have hsorted : L.Sorted (· < ·) := by
    rw [hL]
    exact sortInts_sorted (hn List.nodup_nil)
  have hb : ∀ n ∈ L, 0 ≤ n ∧ n ≤ maxInt := by
    intro n hnL
    refine ⟨hpos n hnL, ?_⟩
    rw [hL, mem_sortInts, hm n] at hnL
    rcases hnL with hnil | ⟨tok, _, ht⟩
    · simp at hnil
    · exact (specTokenHas_bounds ht).2
  by_cases hne : L = []
  · subst hne
    rfl
  · unfold ParsePorts
    rw [Split_joinComma_Itoa L hb hne, parseLoop_Itoa fuel2 L [] hb]
    simp only
    rw [sortInts_foldl_mapSet hsorted]

/-- Witness for C8 (amended) on the input `"80,22,1000-1002"`. -/
theorem ParsePorts_reparse_witness :
    ParsePorts 8 "80,22,1000-1002".toList = some (.ok [22, 80, 1000, 1001, 1002]) ∧
    (∀ n ∈ ([22, 80, 1000, 1001, 1002] : List Int), 0 ≤ n) ∧
    ∀ fuel2, ParsePorts fuel2 (joinComma (([22, 80, 1000, 1001, 1002] : List Int).map Itoa)) =
      some (.ok [22, 80, 1000, 1001, 1002]) :=
  ⟨by decide, by decide,
    ParsePorts_reparse 8 "80,22,1000-1002".toList [22, 80, 1000, 1001, 1002] (by decide)
      (by decide)⟩

/-- C8 as stated fails on `"0--1"`: the input parses to `[-1, 0]`, whose
rendering `"-1,0"` is rejected, because the token `-1` is read as a range with
an empty lower bound. -/
theorem ParsePorts_reparse_negative :
    ParsePorts 8 "0--1".toList = some (.ok [-1, 0]) ∧
    joinComma (([-1, 0] : List Int).map Itoa) = "-1,0".toList ∧
    ∀ fuel2, ParsePorts fuel2 (joinComma (([-1, 0] : List Int).map Itoa)) =
      some (.error (.syntaxErr [])) :=
  ⟨by decide, by decide, fun _ => rfl⟩

/-! ## Proofs: `ProbeTCP` -/

theorem ToLower_ascii (tbl : Char → Char) (s : Str) (h : ∀ c ∈ s, c.toNat ≤ 127) :
    ToLower tbl s = ToLower id s := by
  unfold ToLower
  apply List.map_congr_left
  intro c hc
  unfold toLowerRune
  rw [if_pos (h c hc), if_pos (h c hc)]

/-- The model of `strings.Contains` holds exactly when the second string is a
contiguous block of the first. -/
theorem ContainsStr_iff (s substr : Str) : ContainsStr s substr = true ↔ substr <:+: s := by
  unfold ContainsStr
  rw [List.any_eq_true, List.infix_iff_prefix_suffix]
  constructor
  · rintro ⟨t, ht, hp⟩
    exact ⟨t, List.isPrefixOf_iff_prefix.mp hp, (List.mem_tails _ _).mp ht⟩
  · rintro ⟨t, hp, ht⟩
    exact ⟨t, (List.mem_tails _ _).mpr ht, List.isPrefixOf_iff_prefix.mpr hp⟩

theorem char_eq_iff_toNat {x y : Char} : x = y ↔ x.toNat = y.toNat := by
  constructor
  · intro h; rw [h]
  · intro h
    rw [← Char.ofNat_toNat x, ← Char.ofNat_toNat y, h]

theorem toNat_ofNat_ascii : ∀ n, n < 128 → (Char.ofNat n).toNat = n := by
  decide

theorem toLowerRune_ascii_toNat (tbl : Char → Char) (c : Char) (h : c.toNat ≤ 127) :
    (toLowerRune tbl c).toNat = if 65 ≤ c.toNat ∧ c.toNat ≤ 90 then c.toNat + 32 else c.toNat := by
  unfold toLowerRune
  rw [if_pos h]
  split_ifs with hu
  · exact toNat_ofNat_ascii _ (by omega)
  · rfl

theorem toLowerRune_eq_iff (tbl : Char → Char) (x m : Char) (hm : m.toNat ≤ 127) :
    toLowerRune tbl x = toLowerRune tbl m ↔ SameUpToCase tbl x m := by
  rw [char_eq_iff_toNat, toLowerRune_ascii_toNat tbl m hm]
  unfold SameUpToCase AsciiCasePair
  by_cases hx : x.toNat ≤ 127
  · rw [toLowerRune_ascii_toNat tbl x hx, if_pos hx, char_eq_iff_toNat]
    split_ifs <;> omega
  · have hl : toLowerRune tbl x = tbl x := by
      unfold toLowerRune
      rw [if_neg hx]
    rw [hl, if_neg hx, char_eq_iff_toNat]
    split_ifs <;> omega

theorem map_toLowerRune_eq_iff (tbl : Char → Char) : ∀ (mid marker : Str),
    (∀ c ∈ marker, c.toNat ≤ 127) →
    (List.Forall₂ (SameUpToCase tbl) mid marker ↔
      mid.map (toLowerRune tbl) = marker.map (toLowerRune tbl)) := by
  intro mid
  induction mid with
  | nil =>
    intro marker _
    cases marker with
    | nil => simp
    | cons m ms => simp
  | cons x xs ih =>
    intro marker h
    cases marker with
    | nil => simp
    | cons m ms =>
      rw [List.forall₂_cons, List.map_cons, List.map_cons, List.cons.injEq,
        ih ms (fun c hc => h c (List.mem_cons_of_mem _ hc)),
        toLowerRune_eq_iff tbl x m (h m (List.mem_cons_self _ _))]

/-- The test of the fingerprint loop is the case-insensitive containment of
the specification, for an ASCII marker. -/
theorem markerMatches_iff (tbl : Char → Char) (banner marker : Str)
    (h : ∀ c ∈ marker, c.toNat ≤ 127) :
    markerMatches tbl banner marker = true ↔ ContainsIgnoringCase tbl banner marker := by
  unfold markerMatches ContainsIgnoringCase ToLower
  rw [ContainsStr_iff]
  constructor
  · rintro ⟨s, t, hst⟩
    obtain ⟨l1, post, hb, h1, _⟩ := List.map_eq_append_iff.mp hst.symm
    obtain ⟨pre, mid, hl1, _, hmid⟩ := List.map_eq_append_iff.mp h1
    refine ⟨pre, mid, post, by rw [hb, hl1], ?_⟩
    exact (map_toLowerRune_eq_iff tbl mid marker h).mpr hmid
  · rintro ⟨pre, mid, post, hb, hf⟩
    have hmid := (map_toLowerRune_eq_iff tbl mid marker h).mp hf
    refine ⟨pre.map (toLowerRune tbl), post.map (toLowerRune tbl), ?_⟩
    rw [hb, List.map_append, List.map_append, hmid]

theorem fingerprints_ascii : ∀ kv ∈ fingerprints, ∀ c ∈ kv.1, c.toNat ≤ 127 := by
  decide


/-- For an ASCII banner the test of the fingerprint loop does not depend on the
Unicode case table. -/
theorem markerMatches_ascii (tbl : Char → Char) (banner : Str)
    (hb : ∀ c ∈ banner, c.toNat ≤ 127) :
    ∀ kv ∈ fingerprints, markerMatches tbl banner kv.1 = markerMatches id banner kv.1 := by
  intro kv hkv
  unfold markerMatches
  rw [ToLower_ascii tbl banner hb, ToLower_ascii tbl kv.1 (fingerprints_ascii kv hkv)]

/-- The banner `SSH-2.0-OpenSSH_8.9` matches the marker `OpenSSH` and no other. -/
theorem markerMatches_ssh (tbl : Char → Char) :
    ∀ kv ∈ fingerprints, markerMatches tbl "SSH-2.0-OpenSSH_8.9".toList kv.1 = true ↔
      kv = ("OpenSSH".toList, "SSH server".toList) := by
  intro kv hkv
  rw [markerMatches_ascii tbl _ (by decide) kv hkv]
  revert kv
  decide

/-- The banner `SSH-2.0-OPENSSH_8.9`, in capitals, matches the marker `OpenSSH`
and no other. -/
theorem markerMatches_ssh_upper (tbl : Char → Char) :
    ∀ kv ∈ fingerprints, markerMatches tbl "SSH-2.0-OPENSSH_8.9".toList kv.1 = true ↔
      kv = ("OpenSSH".toList, "SSH server".toList) := by
  intro kv hkv
  rw [markerMatches_ascii tbl _ (by decide) kv hkv]
  revert kv
  decide

/-- The banner `server: APACHE/2.4 (mysql)` matches the markers `Apache` and
`MySQL` and no other. -/
theorem markerMatches_two (tbl : Char → Char) :
    ∀ kv ∈ fingerprints, markerMatches tbl "server: APACHE/2.4 (mysql)".toList kv.1 = true ↔
      (kv = ("Apache".toList, "Apache HTTP Server".toList) ∨
        kv = ("MySQL".toList, "MySQL service".toList)) := by
  intro kv hkv
  rw [markerMatches_ascii tbl _ (by decide) kv hkv]
  revert kv
  decide

/-- C7, as the code has it. `ProbeTCP` never returns an error: whatever the
reason for which the connection is not established, a malformed address and
port included, it returns `PortInfo{Port: port, Open: false}` with empty
`Service` and `Banner` and a nil error, and a nil error also when the port is
open. -/
theorem ProbeTCP_error_nil (w : World) (ip : Str) (port : Int) (timeout : Nat)
    (grabBanner : Bool) :
    (ProbeTCP w ip port timeout grabBanner).2 = none ∧
    ∀ e, w.dial (JoinHostPort ip (Itoa port)) timeout = .error e →
      (ProbeTCP w ip port timeout grabBanner).1 =
        { Port := port, Open := false, Service := [], Banner := [] } := by
  constructor
  · cases hd : w.dial (JoinHostPort ip (Itoa port)) timeout with
    | error e => simp only [ProbeTCP, hd]
    | conn b =>
      cases grabBanner with
      | false => simp [ProbeTCP, hd]
      | true =>
        simp only [ProbeTCP, hd, if_true]
        cases w.mapOrder.find? (fun kv => markerMatches w.lowerTable (TrimSpace b) kv.1) <;> rfl
  · intro e he
    simp only [ProbeTCP, he]

/-- Witness for C7 (amended): a refused connection. -/
theorem ProbeTCP_error_nil_witness :
    (failingWorld .refused).dial (JoinHostPort "10.0.0.1".toList (Itoa 81)) 1000 =
      .error .refused ∧
    (ProbeTCP (failingWorld .refused) "10.0.0.1".toList 81 1000 true).2 = none ∧
    (ProbeTCP (failingWorld .refused) "10.0.0.1".toList 81 1000 true).1 =
      { Port := 81, Open := false, Service := [], Banner := [] } :=
  ⟨rfl, (ProbeTCP_error_nil (failingWorld .refused) "10.0.0.1".toList 81 1000 true).1,
    (ProbeTCP_error_nil (failingWorld .refused) "10.0.0.1".toList 81 1000 true).2 _ rfl⟩

/-- C7 as stated fails on a malformed address and port: the dial reports the
malformed address, and `ProbeTCP` returns a closed port with a nil error. -/
theorem ProbeTCP_malformed_no_error :
    (failingWorld .malformed).dial (JoinHostPort "300.1.1.1".toList (Itoa 70000)) 1000 =
      .error .malformed ∧
    ProbeTCP (failingWorld .malformed) "300.1.1.1".toList 70000 1000 false =
      ({ Port := 70000, Open := false, Service := [], Banner := [] }, none) :=
  ⟨rfl, rfl⟩

/-- C9. With banner grabbing on an open port, whatever the order in which the
fingerprint table is visited and whatever the text read: the banner is the
trimmed text; when it contains, compared case-insensitively, exactly one
marker of the table, `Service` is that marker's label; when it contains none,
`Service` is empty; when it contains some, `Service` is the label of a marker
it contains. The banners `SSH-2.0-OpenSSH_8.9` and `SSH-2.0-OPENSSH_8.9` give
`SSH server`; the banner `server: APACHE/2.4 (mysql)`, with two markers, gives
`Apache HTTP Server` or `MySQL service`. -/
theorem ProbeTCP_service (w : World) (ip : Str) (port : Int) (timeout : Nat) (b : Str)
    (horder : w.mapOrder.Perm fingerprints)
    (hdial : w.dial (JoinHostPort ip (Itoa port)) timeout = .conn b) :
    (ProbeTCP w ip port timeout true).1.Open = true ∧
    (ProbeTCP w ip port timeout true).1.Banner = TrimSpace b ∧
    (∀ kv ∈ fingerprints, ContainsIgnoringCase w.lowerTable (TrimSpace b) kv.1 →
      (∀ kv2 ∈ fingerprints, ContainsIgnoringCase w.lowerTable (TrimSpace b) kv2.1 → kv2 = kv) →
      (ProbeTCP w ip port timeout true).1.Service = kv.2) ∧
    ((∀ kv ∈ fingerprints, ¬ ContainsIgnoringCase w.lowerTable (TrimSpace b) kv.1) →
      (ProbeTCP w ip port timeout true).1.Service = []) ∧
    ((∃ kv ∈ fingerprints, ContainsIgnoringCase w.lowerTable (TrimSpace b) kv.1) →
      ∃ kv ∈ fingerprints, ContainsIgnoringCase w.lowerTable (TrimSpace b) kv.1 ∧
        (ProbeTCP w ip port timeout true).1.Service = kv.2) ∧
    (TrimSpace b = "SSH-2.0-OpenSSH_8.9".toList →
      (ProbeTCP w ip port timeout true).1.Service = "SSH server".toList) ∧
    (TrimSpace b = "SSH-2.0-OPENSSH_8.9".toList →
      (ProbeTCP w ip port timeout true).1.Service = "SSH server".toList) ∧
    (TrimSpace b = "server: APACHE/2.4 (mysql)".toList →
      (ProbeTCP w ip port timeout true).1.Service = "Apache HTTP Server".toList ∨
      (ProbeTCP w ip port timeout true).1.Service = "MySQL service".toList) := by
  have hP : ProbeTCP w ip port timeout true =
      match w.mapOrder.find? (fun kv => markerMatches w.lowerTable (TrimSpace b) kv.1) with
      | some kv => ({ Port := port, Open := true, Service := kv.2, Banner := TrimSpace b }, none)
      | none => ({ Port := port, Open := true, Service := [], Banner := TrimSpace b }, none) := by
    simp only [ProbeTCP, hdial, if_true]
  have hiff : ∀ kv ∈ fingerprints, markerMatches w.lowerTable (TrimSpace b) kv.1 = true ↔
      ContainsIgnoringCase w.lowerTable (TrimSpace b) kv.1 :=
    fun kv hkv => markerMatches_iff w.lowerTable (TrimSpace b) kv.1 (fingerprints_ascii kv hkv)
  rw [hP]
  cases hf : w.mapOrder.find? (fun kv => markerMatches w.lowerTable (TrimSpace b) kv.1) with
  | none =>
    have hnone : ∀ kv ∈ fingerprints, markerMatches w.lowerTable (TrimSpace b) kv.1 = false := by
      intro kv hkv
      have := List.find?_eq_none.mp hf kv (horder.mem_iff.mpr hkv)
      simpa using this
    have hno : ∀ kv ∈ fingerprints, ¬ ContainsIgnoringCase w.lowerTable (TrimSpace b) kv.1 := by
      intro kv hkv hc
      have := (hiff kv hkv).mpr hc
      rw [hnone kv hkv] at this
      cases this
    refine ⟨rfl, rfl, ?_, fun _ => rfl, ?_, ?_, ?_, ?_⟩
    · intro kv hkv hm _
      exact absurd hm (hno kv hkv)
    · rintro ⟨kv, hkv, hm⟩
      exact absurd hm (hno kv hkv)
    · intro hb
      have h1 := (markerMatches_ssh w.lowerTable ("OpenSSH".toList, "SSH server".toList)
        (by decide)).mpr rfl
      rw [← hb, hnone _ (by decide)] at h1
      cases h1
    · intro hb
      have h1 := (markerMatches_ssh_upper w.lowerTable ("OpenSSH".toList, "SSH server".toList)
        (by decide)).mpr rfl
      rw [← hb, hnone _ (by decide)] at h1
      cases h1
    · intro hb
      have h1 := (markerMatches_two w.lowerTable ("Apache".toList, "Apache HTTP Server".toList)
        (by decide)).mpr (Or.inl rfl)
      rw [← hb, hnone _ (by decide)] at h1
      cases h1
  | some kv0 =>
    have hm0 : markerMatches w.lowerTable (TrimSpace b) kv0.1 = true := by
      simpa using List.find?_some hf
    have hmem0 : kv0 ∈ fingerprints := horder.mem_iff.mp (List.mem_of_find?_eq_some hf)
    have hc0 : ContainsIgnoringCase w.lowerTable (TrimSpace b) kv0.1 := (hiff kv0 hmem0).mp hm0
    refine ⟨rfl, rfl, ?_, ?_, fun _ => ⟨kv0, hmem0, hc0, rfl⟩, ?_, ?_, ?_⟩
    · intro kv _ _ huniq
      rw [huniq kv0 hmem0 hc0]
    · intro hnone
      exact absurd hc0 (hnone kv0 hmem0)
    · intro hb
      rw [hb] at hm0
      rw [(markerMatches_ssh w.lowerTable kv0 hmem0).mp hm0]
    · intro hb
      rw [hb] at hm0
      rw [(markerMatches_ssh_upper w.lowerTable kv0 hmem0).mp hm0]
    · intro hb
      rw [hb] at hm0
      rcases (markerMatches_two w.lowerTable kv0 hmem0).mp hm0 with h | h
      · left; rw [h]
      · right; rw [h]

/-- Witness for C9: a banner in capitals, `SSH-2.0-OPENSSH_8.9`, the table
visited in reverse order. -/
theorem ProbeTCP_service_witness :
    (bannerWorld "SSH-2.0-OPENSSH_8.9\r\n".toList).mapOrder.Perm fingerprints ∧
    (ProbeTCP (bannerWorld "SSH-2.0-OPENSSH_8.9\r\n".toList) "10.0.0.1".toList 22 1000 true).1 =
      { Port := 22, Open := true, Service := "SSH server".toList,
        Banner := "SSH-2.0-OPENSSH_8.9".toList } ∧
    (ProbeTCP (bannerWorld "server: APACHE/2.4 (mysql)".toList) "10.0.0.1".toList 80 1000
      true).1.Service = "MySQL service".toList ∧
    (ProbeTCP (bannerWorld "HTTP/1.1 200 OK".toList) "10.0.0.1".toList 80 1000
      true).1.Service = [] ∧
    (ProbeTCP (bannerWorld "SSH-2.0-OPENSSH_8.9\r\n".toList) "10.0.0.1".toList 22 1000
      true).1.Service = "SSH server".toList :=
  ⟨List.reverse_perm fingerprints, by decide, by decide, by decide,
    (ProbeTCP_service (bannerWorld "SSH-2.0-OPENSSH_8.9\r\n".toList) "10.0.0.1".toList 22 1000
      "SSH-2.0-OPENSSH_8.9\r\n".toList (List.reverse_perm fingerprints) rfl).2.2.2.2.2.2.1
      (by decide)⟩

/-! ## Proofs: bounded fan-out -/

theorem waiting_append {α : Type} (l1 l2 : List (α × Bool)) :
    waiting (l1 ++ l2) = waiting l1 ++ waiting l2 := by
  unfold waiting
  rw [List.filter_append, List.map_append]

theorem waiting_set {α : Type} (t : α) : ∀ (l : List (α × Bool)) (k : Nat),
    l[k]? = some (t, false) → (waiting l).Perm (t :: waiting (l.set k (t, true))) := by
  intro l
  induction l with
  | nil => intro k h; simp at h
  | cons x l ih =>
    intro k h
    cases k with
    | zero =>
      simp only [List.getElem?_cons_zero, Option.some.injEq] at h
      subst h
      simp [waiting]
    | succ k =>
      simp only [List.getElem?_cons_succ] at h
      have := ih k h
      rcases x with ⟨a, f⟩
      cases f with
      | true => simpa [waiting] using this
      | false =>
        simp only [waiting, List.set_cons_succ, List.filter_cons, Bool.not_false, if_true,
          List.map_cons] at this ⊢
        exact (List.Perm.cons a this).trans (List.Perm.swap t a _)

theorem waiting_eraseIdx {α : Type} (t : α) : ∀ (l : List (α × Bool)) (k : Nat),
    l[k]? = some (t, true) → waiting (l.eraseIdx k) = waiting l := by
  intro l
  induction l with
  | nil => intro k h; simp at h
  | cons x l ih =>
    intro k h
    cases k with
    | zero =>
      simp only [List.getElem?_cons_zero, Option.some.injEq] at h
      subst h
      simp [waiting]
    | succ k =>
      simp only [List.getElem?_cons_succ] at h
      have := ih k h
      rcases x with ⟨a, f⟩
      cases f with
      | true => simpa [waiting] using this
      | false => simpa [waiting] using this

/-- A scheduler step neither loses nor duplicates a task. -/
theorem Pool.step_perm {α : Type} (c : Nat) (s s1 : Pool α) (st : Step)
    (h : s.step c st = some s1) : s1.all.Perm s.all := by
  cases st with
  | launch =>
    simp only [Pool.step] at h
    cases hp : s.pending with
    | nil => rw [hp] at h; simp at h
    | cons t ts =>
      rw [hp] at h
      simp only at h
      split_ifs at h
      simp only [Option.some.injEq] at h
      subst h
      simp [Pool.all, waiting_append, waiting, hp]
  | deliver k =>
    simp only [Pool.step] at h
    cases hk : s.running[k]? with
    | none => rw [hk] at h; simp at h
    | some x =>
      rcases x with ⟨t, f⟩
      rw [hk] at h
      cases f with
      | true => simp at h
      | false =>
        simp only [Option.some.injEq] at h
        subst h
        simp only [Pool.all, List.append_assoc, List.singleton_append]
        refine List.Perm.append_left _ ?_
        have := waiting_set t s.running k hk
        exact (List.Perm.append_right s.pending this).symm
  | release k =>
    simp only [Pool.step] at h
    cases hk : s.running[k]? with
    | none => rw [hk] at h; simp at h
    | some x =>
      rcases x with ⟨t, f⟩
      rw [hk] at h
      cases f with
      | false => simp at h
      | true =>
        simp only [Option.some.injEq] at h
        subst h
        simp only [Pool.all]
        rw [waiting_eraseIdx t s.running k hk]

theorem Pool.run_perm {α : Type} (c : Nat) : ∀ (sched : List Step) (s s1 : Pool α),
    Pool.run c s sched = some s1 → s1.all.Perm s.all := by
  intro sched
  induction sched with
  | nil =>
    intro s s1 h
    simp only [Pool.run, Option.some.injEq] at h
    subst h
    exact List.Perm.refl _
  | cons st rest ih =>
    intro s s1 h
    simp only [Pool.run] at h
    cases hs : s.step c st with
    | none => rw [hs] at h; simp at h
    | some s2 =>
      rw [hs] at h
      exact (ih s2 s1 h).trans (Pool.step_perm c s s2 st hs)

/-- Whatever the interleaving, the goroutines hand over a rearrangement of the
task list: every task once. -/
theorem fanOut_perm {α : Type} (c : Nat) (tasks d : List α) (sched : List Step)
    (h : fanOut c tasks sched = some d) : d.Perm tasks := by
  unfold fanOut at h
  cases hr : Pool.run c { pending := tasks, running := [], delivered := [] } sched with
  | none => rw [hr] at h; simp at h
  | some s1 =>
    rw [hr] at h
    have hp := Pool.run_perm c sched _ s1 hr
    rcases s1 with ⟨p, r, dl⟩
    cases p with
    | cons _ _ => simp at h
    | nil =>
      cases r with
      | cons _ _ => simp at h
      | nil =>
        simp only [Option.some.injEq] at h
        subst h
        simpa [Pool.all, waiting] using hp

theorem Pool.run_seq {α : Type} (c : Nat) (hc : 1 ≤ c) : ∀ (tasks d : List α),
    Pool.run c { pending := tasks, running := [], delivered := d } (seqSchedule tasks.length) =
      some { pending := [], running := [], delivered := d ++ tasks } := by
  intro tasks
  induction tasks with
  | nil => intro d; simp [seqSchedule, Pool.run]
  | cons t ts ih =>
    intro d
    have hc0 : 0 < c := hc
    simp only [List.length_cons, seqSchedule, Pool.run, Pool.step, List.length_nil, hc0, if_true,
      List.nil_append, List.getElem?_cons_zero, List.set_cons_zero, List.eraseIdx_cons_zero]
    rw [ih (d ++ [t])]
    simp

/-- With a semaphore of capacity at least one the fan-out can run to its end. -/
theorem fanOut_seq {α : Type} (c : Nat) (hc : 1 ≤ c) (tasks : List α) :
    fanOut c tasks (seqSchedule tasks.length) = some tasks := by
  unfold fanOut
  rw [Pool.run_seq c hc tasks []]
  simp

theorem Pool.run_append {α : Type} (c : Nat) : ∀ (s1 s2 : List Step) (s : Pool α),
    Pool.run c s (s1 ++ s2) =
      match Pool.run c s s1 with
      | none => none
      | some t => Pool.run c t s2 := by
  intro s1
  induction s1 with
  | nil => intro s2 s; rfl
  | cons st rest ih =>
    intro s2 s
    simp only [List.cons_append, Pool.run]
    cases s.step c st with
    | none => rfl
    | some t => exact ih s2 t

/-- The running goroutines can always hand over and end. -/
theorem Pool.drain {α : Type} (c : Nat) : ∀ (r : List (α × Bool)) (p d : List α),
    ∃ sched d1, Pool.run c { pending := p, running := r, delivered := d } sched =
      some { pending := p, running := [], delivered := d1 } := by
  intro r
  induction r with
  | nil => intro p d; exact ⟨[], d, rfl⟩
  | cons x r ih =>
    intro p d
    rcases x with ⟨t, f⟩
    cases f with
    | true =>
      obtain ⟨sched, d1, h⟩ := ih p d
      refine ⟨Step.release 0 :: sched, d1, ?_⟩
      simp only [Pool.run, Pool.step, List.getElem?_cons_zero, List.eraseIdx_cons_zero]
      exact h
    | false =>
      obtain ⟨sched, d1, h⟩ := ih p (d ++ [t])
      refine ⟨Step.deliver 0 :: Step.release 0 :: sched, d1, ?_⟩
      simp only [Pool.run, Pool.step, List.getElem?_cons_zero, List.set_cons_zero,
        List.eraseIdx_cons_zero]
      exact h

/-- No deadlock: with a semaphore of capacity at least one, every state of the
fan-out has a schedule that runs it to the end. -/
theorem Pool.can_finish {α : Type} (c : Nat) (hc : 1 ≤ c) (s : Pool α) :
    ∃ sched d, Pool.run c s sched = some { pending := [], running := [], delivered := d } := by
  rcases s with ⟨p, r, d⟩
  obtain ⟨s1, d1, h1⟩ := Pool.drain c r p d
  refine ⟨s1 ++ seqSchedule p.length, d1 ++ p, ?_⟩
  rw [Pool.run_append, h1]
  exact Pool.run_seq c hc p d1

/-- Every schedule that the fan-out can follow extends to a complete one. -/
theorem fanOut_extends {α : Type} (c : Nat) (hc : 1 ≤ c) (tasks : List α) (sched : List Step)
    (s : Pool α) (h : Pool.run c { pending := tasks, running := [], delivered := [] } sched = some s) :
    ∃ more d, fanOut c tasks (sched ++ more) = some d := by
  obtain ⟨more, d, h2⟩ := Pool.can_finish c hc s
  refine ⟨more, d, ?_⟩
  unfold fanOut
  rw [Pool.run_append, h]
  simp only [h2]

/-! ## Proofs: `ScanHost` -/

theorem ProbeTCP_port (w : World) (ip : Str) (port : Int) (timeout : Nat) (grabBanner : Bool) :
    (ProbeTCP w ip port timeout grabBanner).1.Port = port := by
  cases hd : w.dial (JoinHostPort ip (Itoa port)) timeout with
  | error e => simp only [ProbeTCP, hd]
  | conn b =>
    cases grabBanner with
    | false => simp [ProbeTCP, hd]
    | true =>
      simp only [ProbeTCP, hd, if_true]
      cases w.mapOrder.find? (fun kv => markerMatches w.lowerTable (TrimSpace b) kv.1) <;> rfl

theorem probeResults_ports (world : Nat → World) (ip : Str) (ports : List Int) (timeout : Nat)
    (grabBanner : Bool) :
    (probeResults world ip ports timeout grabBanner).map (fun pi => pi.Port) = ports := by
  unfold probeResults
  rw [List.map_map]
  have : ((fun pi : PortInfo => pi.Port) ∘
      fun t : Nat × Int => (ProbeTCP (world t.1) ip t.2 timeout grabBanner).1) = Prod.snd := by
    funext t
    exact ProbeTCP_port _ _ _ _ _
  rw [this, List.enum_map_snd]

/-- The shape of every result of `ScanHost`. -/
theorem ScanHost_some {world : Nat → World} {sched : List Step} {ip : Str} {ports : List Int}
    {timeout : Nat} {concurrency : Int} {grabBanner : Bool} {host : HostResult}
    (h : ScanHost world sched ip ports timeout concurrency grabBanner = some host) :
    ∃ order, fanOut concurrency.toNat ports.enum sched = some order ∧
      host.IP = ip ∧
      host.OpenPorts = (order.map
        (fun t => (ProbeTCP (world t.1) ip t.2 timeout grabBanner).1)).filter (fun pi => pi.Open) ∧
      (host.Alive = true ↔ host.OpenPorts ≠ []) := by
  unfold ScanHost at h
  simp only at h
  split_ifs at h with hneg
  cases hf : fanOut concurrency.toNat ports.enum sched with
  | none => rw [hf] at h; simp at h
  | some order =>
    rw [hf] at h
    simp only [List.nil_append] at h
    refine ⟨order, rfl, ?_⟩
    split_ifs at h with hlen
    · simp only [Option.some.injEq] at h
      subst h
      exact ⟨rfl, rfl, by simpa using List.ne_nil_of_length_pos hlen⟩
    · simp only [Option.some.injEq] at h
      subst h
      refine ⟨rfl, rfl, ?_⟩
      simp only [Bool.false_eq_true, false_iff, not_not]
      exact List.eq_nil_of_length_eq_zero (by omega)

/-- With a concurrency of at least one, `ScanHost` returns under the
schedule that runs the probes one after the other. -/
theorem ScanHost_returns (world : Nat → World) (ip : Str) (ports : List Int) (timeout : Nat)
    (concurrency : Int) (hc : 1 ≤ concurrency) (grabBanner : Bool) :
    ∃ host, ScanHost world (seqSchedule ports.length) ip ports timeout concurrency grabBanner =
      some host := by
  unfold ScanHost
  simp only
  rw [if_neg (by omega)]
  have := fanOut_seq concurrency.toNat (by omega) ports.enum
  rw [List.enum_length] at this
  rw [this]
  simp only
  split_ifs
  · exact ⟨_, rfl⟩
  · exact ⟨_, rfl⟩

theorem ScanHost_openPorts_perm {world : Nat → World} {sched : List Step} {ip : Str}
    {ports : List Int} {timeout : Nat} {concurrency : Int} {grabBanner : Bool} {host : HostResult}
    (h : ScanHost world sched ip ports timeout concurrency grabBanner = some host) :
    host.OpenPorts.Perm
      ((probeResults world ip ports timeout grabBanner).filter (fun pi => pi.Open)) := by
  obtain ⟨order, hf, _, ho, _⟩ := ScanHost_some h
  rw [ho]
  unfold probeResults
  exact ((fanOut_perm _ _ _ _ hf).map _).filter _

/-- No deadlock in `ScanHost`: with a concurrency of at least one, every
schedule that the goroutines can follow extends to one under which `ScanHost`
returns. -/
theorem ScanHost_extends (world : Nat → World) (ip : Str) (ports : List Int) (timeout : Nat)
    (concurrency : Int) (hc : 1 ≤ concurrency) (grabBanner : Bool) (sched : List Step)
    (s : Pool (Nat × Int))
    (h : Pool.run concurrency.toNat { pending := ports.enum, running := [], delivered := [] }
      sched = some s) :
    ∃ more host,
      ScanHost world (sched ++ more) ip ports timeout concurrency grabBanner = some host := by
  obtain ⟨more, d, hd⟩ := fanOut_extends concurrency.toNat (by omega) ports.enum sched s h
  refine ⟨more, ?_⟩
  unfold ScanHost
  simp only
  rw [if_neg (by omega), hd]
  simp only
  split_ifs
  · exact ⟨_, rfl⟩
  · exact ⟨_, rfl⟩

/-- C3. For every address, port list, timeout, concurrency of at least one,
banner flag, probe outcomes and interleaving of the probes, `ScanHost` returns
(under the sequential interleaving at least), and every `HostResult` it returns
has `Alive = true` exactly when its `OpenPorts` is not empty. -/
theorem ScanHost_alive_iff (world : Nat → World) (ip : Str) (ports : List Int) (timeout : Nat)
    (concurrency : Int) (hc : 1 ≤ concurrency) (grabBanner : Bool) :
    (∃ sched host,
      ScanHost world sched ip ports timeout concurrency grabBanner = some host) ∧
    ∀ sched host, ScanHost world sched ip ports timeout concurrency grabBanner = some host →
      (host.Alive = true ↔ host.OpenPorts ≠ []) := by
  constructor
  · obtain ⟨host, hh⟩ := ScanHost_returns world ip ports timeout concurrency hc grabBanner
    exact ⟨_, host, hh⟩
  · intro sched host h
    obtain ⟨_, _, _, _, ha⟩ := ScanHost_some h
    exact ha

/-- Witness for C3: two ports, one of them open, concurrency 5. -/
theorem ScanHost_alive_iff_witness :
    (1 : Int) ≤ 5 ∧
    ScanHost (fun i => if i = 0 then bannerWorld [] else failingWorld .refused)
      [.launch, .launch, .deliver 1, .deliver 0, .release 0, .release 0]
      "10.0.0.1".toList [22, 80] 1000 5 false =
      some { IP := "10.0.0.1".toList, Alive := true, OpenPorts := [⟨22, true, [], []⟩] } ∧
    ((∃ sched host, ScanHost (fun i => if i = 0 then bannerWorld [] else failingWorld .refused)
        sched "10.0.0.1".toList [22, 80] 1000 5 false = some host) ∧
      ∀ sched host, ScanHost (fun i => if i = 0 then bannerWorld [] else failingWorld .refused)
        sched "10.0.0.1".toList [22, 80] 1000 5 false = some host →
        (host.Alive = true ↔ host.OpenPorts ≠ [])) :=
  ⟨by decide, by decide,
    ScanHost_alive_iff (fun i => if i = 0 then bannerWorld [] else failingWorld .refused)
      "10.0.0.1".toList [22, 80] 1000 5 (by decide) false⟩

/-- C5. For every address, port list, probe outcomes, banner flag and
concurrency of at least one, `ScanHost` returns, and under every interleaving
the `OpenPorts` it returns are, up to order, exactly the results of the probes
that reported `Open = true`, one probe for each entry of the port list and
carrying that entry's port; no result of a closed port is among them. Hence
the open ports found with concurrency 1 and with concurrency 50 are the same up
to order. -/
theorem ScanHost_openPorts (world : Nat → World) (ip : Str) (ports : List Int) (timeout : Nat)
    (concurrency : Int) (hc : 1 ≤ concurrency) (grabBanner : Bool) :
    (∃ sched host,
      ScanHost world sched ip ports timeout concurrency grabBanner = some host) ∧
    (probeResults world ip ports timeout grabBanner).map (fun pi => pi.Port) = ports ∧
    (∀ sched host, ScanHost world sched ip ports timeout concurrency grabBanner = some host →
      host.OpenPorts.Perm
        ((probeResults world ip ports timeout grabBanner).filter (fun pi => pi.Open)) ∧
      ∀ pi ∈ host.OpenPorts, pi.Open = true) ∧
    ∀ sched1 sched50 host1 host50,
      ScanHost world sched1 ip ports timeout 1 grabBanner = some host1 →
      ScanHost world sched50 ip ports timeout 50 grabBanner = some host50 →
      host1.OpenPorts.Perm host50.OpenPorts := by
  refine ⟨?_, probeResults_ports _ _ _ _ _, ?_, ?_⟩
  · obtain ⟨host, hh⟩ := ScanHost_returns world ip ports timeout concurrency hc grabBanner
    exact ⟨_, host, hh⟩
  · intro sched host h
    have hp := ScanHost_openPorts_perm h
    refine ⟨hp, fun pi hpi => ?_⟩
    have := hp.mem_iff.mp hpi
    exact (List.mem_filter.mp this).2
  · intro sched1 sched50 host1 host50 h1 h50
    exact (ScanHost_openPorts_perm h1).trans (ScanHost_openPorts_perm h50).symm

/-- Witness for C5: two ports, one of them open, concurrency 5. -/
theorem ScanHost_openPorts_witness :
    (1 : Int) ≤ 5 ∧
    ScanHost (fun i => if i = 0 then failingWorld .timeout else bannerWorld [])
      [.launch, .launch, .deliver 1, .deliver 0, .release 0, .release 0]
      "10.0.0.1".toList [22, 80] 1000 5 false =
      some { IP := "10.0.0.1".toList, Alive := true, OpenPorts := [⟨80, true, [], []⟩] } ∧
    ∀ sched1 sched50 host1 host50,
      ScanHost (fun i => if i = 0 then failingWorld .timeout else bannerWorld [])
        sched1 "10.0.0.1".toList [22, 80] 1000 1 false = some host1 →
      ScanHost (fun i => if i = 0 then failingWorld .timeout else bannerWorld [])
        sched50 "10.0.0.1".toList [22, 80] 1000 50 false = some host50 →
      host1.OpenPorts.Perm host50.OpenPorts :=
  ⟨by decide, by decide,
    (ScanHost_openPorts (fun i => if i = 0 then failingWorld .timeout else bannerWorld [])
      "10.0.0.1".toList [22, 80] 1000 5 (by decide) false).2.2.2⟩

/-! ## Proofs: `ScanNetwork` -/

theorem ScanNetwork_eq (world : Nat → Nat → World) (portSched : Nat → List Step)
    (hostSched : List Step) (target portsSpec : Str) (targets : List Str) (ports : List Int)
    (timeout : Nat) (concurrency : Int) (grabBanner : Bool) :
    ScanNetwork world portSched hostSched target portsSpec targets ports timeout concurrency
        grabBanner =
      if concurrency < 0 then none
      else
        match fanOut concurrency.toNat targets.enum hostSched with
        | none => none
        | some order =>
          match order.foldl (collectHost world portSched ports timeout concurrency grabBanner)
            (some { TrueTargets := [], FalseTargets := [], Target := target,
                    PortsScanned := portsSpec,
                    Notes := "Scan initiated via web interface".toList }) with
          | none => none
          | some rep =>
            some { rep with
              TrueTargets := sortSlice (fun a b => strLess a.IP b.IP) rep.TrueTargets,
              FalseTargets := sortSlice (fun a b => strLess a.IP b.IP) rep.FalseTargets } := by
  rfl

theorem foldl_collectHost_none (world : Nat → Nat → World) (portSched : Nat → List Step)
    (ports : List Int) (timeout : Nat) (concurrency : Int) (grabBanner : Bool) :
    ∀ order : List (Nat × Str),
      order.foldl (collectHost world portSched ports timeout concurrency grabBanner) none = none := by
  intro order
  induction order with
  | nil => rfl
  | cons t ts ih => simpa [List.foldl_cons, collectHost] using ih

/-- The fold over the hand-over order appends, to the two lists, the alive and
the dead among the host results, each in hand-over order. -/
theorem foldl_collectHost (world : Nat → Nat → World) (portSched : Nat → List Step)
    (ports : List Int) (timeout : Nat) (concurrency : Int) (grabBanner : Bool) :
    ∀ (order : List (Nat × Str)) (rep0 rep : ScanReport),
      order.foldl (collectHost world portSched ports timeout concurrency grabBanner) (some rep0) =
        some rep →
      ∃ results : List HostResult,
        List.Forall₂ (fun t hr =>
          ScanHost (world t.1) (portSched t.1) t.2 ports timeout concurrency grabBanner = some hr)
          order results ∧
        rep.TrueTargets = rep0.TrueTargets ++ results.filter (fun hr => hr.Alive) ∧
        rep.FalseTargets = rep0.FalseTargets ++ results.filter (fun hr => !hr.Alive) := by
  intro order
  induction order with
  | nil =>
    intro rep0 rep h
    simp only [List.foldl_nil, Option.some.injEq] at h
    subst h
    exact ⟨[], List.Forall₂.nil, by simp, by simp⟩
  | cons t ts ih =>
    intro rep0 rep h
    rw [List.foldl_cons] at h
    cases hs : ScanHost (world t.1) (portSched t.1) t.2 ports timeout concurrency grabBanner with
    | none =>
      simp only [collectHost, hs] at h
      rw [foldl_collectHost_none] at h
      cases h
    | some hr =>
      cases ha : hr.Alive with
      | true =>
        simp only [collectHost, hs, ha, if_true] at h
        obtain ⟨results, hf, h1, h2⟩ := ih _ rep h
        refine ⟨hr :: results, List.Forall₂.cons hs hf, ?_, ?_⟩
        · rw [h1]; simp [ha]
        · rw [h2]; simp [ha]
      | false =>
        simp only [collectHost, hs, ha, Bool.false_eq_true, if_false] at h
        obtain ⟨results, hf, h1, h2⟩ := ih _ rep h
        refine ⟨hr :: results, List.Forall₂.cons hs hf, ?_, ?_⟩
        · rw [h1]; simp [ha]
        · rw [h2]; simp [ha]

theorem forall2_scan_ip {world : Nat → Nat → World} {portSched : Nat → List Step}
    {ports : List Int} {timeout : Nat} {concurrency : Int} {grabBanner : Bool}
    {order : List (Nat × Str)} {results : List HostResult}
    (h : List.Forall₂ (fun t hr =>
      ScanHost (world t.1) (portSched t.1) t.2 ports timeout concurrency grabBanner = some hr)
      order results) :
    results.map (fun hr => hr.IP) = order.map Prod.snd := by
  induction h with
  | nil => rfl
  | cons hs _ ih =>
    obtain ⟨_, _, hip, _⟩ := ScanHost_some hs
    rw [List.map_cons, List.map_cons, ih, hip]

theorem sortSlice_perm {α : Type} (less : α → α → Bool) (l : List α) :
    (sortSlice less l).Perm l :=
  List.perm_insertionSort _ l

theorem foldl_collectHost_seq (world : Nat → Nat → World) (ports : List Int)
    (timeout : Nat) (concurrency : Int) (hc : 1 ≤ concurrency) (grabBanner : Bool) :
    ∀ (order : List (Nat × Str)) (rep0 : ScanReport),
      ∃ rep, order.foldl (collectHost world (fun _ => seqSchedule ports.length) ports timeout
        concurrency grabBanner) (some rep0) = some rep := by
  intro order
  induction order with
  | nil => intro rep0; exact ⟨rep0, rfl⟩
  | cons t ts ih =>
    intro rep0
    obtain ⟨hr, hh⟩ := ScanHost_returns (world t.1) t.2 ports timeout concurrency hc grabBanner
    rw [List.foldl_cons]
    simp only [collectHost, hh]
    split_ifs
    · exact ih _
    · exact ih _

theorem forall2_mem_right {α β : Type} {R : α → β → Prop} {l1 : List α} {l2 : List β}
    (h : List.Forall₂ R l1 l2) : ∀ y, y ∈ l2 ↔ ∃ x ∈ l1, ∃ y0 ∈ l2, y0 = y ∧ R x y0 := by
  induction h with
  | nil => intro y; simp
  | @cons a b l1 l2 hab _ ih =>
    intro y
    constructor
    · intro hy
      rcases List.mem_cons.mp hy with rfl | hy
      · exact ⟨a, List.mem_cons_self _ _, y, List.mem_cons_self _ _, rfl, hab⟩
      · obtain ⟨x, hx, y0, hy0, he, hr⟩ := (ih y).mp hy
        exact ⟨x, List.mem_cons_of_mem _ hx, y0, List.mem_cons_of_mem _ hy0, he, hr⟩
    · rintro ⟨x, _, y0, hy0, rfl, _⟩
      exact hy0

theorem forall2_mem_left {α β : Type} {R : α → β → Prop} {l1 : List α} {l2 : List β}
    (h : List.Forall₂ R l1 l2) : ∀ x ∈ l1, ∃ y ∈ l2, R x y := by
  induction h with
  | nil => intro x hx; simp at hx
  | @cons a b l1 l2 hab _ ih =>
    intro x hx
    rcases List.mem_cons.mp hx with rfl | hx
    · exact ⟨b, List.mem_cons_self _ _, hab⟩
    · obtain ⟨y, hy, hr⟩ := ih x hx
      exact ⟨y, List.mem_cons_of_mem _ hy, hr⟩

/-- C4. For pairwise distinct target addresses, whatever the host-scan
outcomes and the interleavings: every report built by `ScanNetwork` holds each
target address exactly once in `TrueTargets` and `FalseTargets` together and no
other address; `TrueTargets` holds exactly the host results with
`Alive = true`, `FalseTargets` exactly those with `Alive = false`; the two
lengths add up to the number of targets. With a concurrency of at least one a
report is built. -/
theorem ScanNetwork_partition (world : Nat → Nat → World) (target portsSpec : Str)
    (targets : List Str) (ports : List Int) (timeout : Nat) (concurrency : Int)
    (grabBanner : Bool) (hnd : targets.Nodup) :
    (1 ≤ concurrency → ∃ portSched hostSched report,
      ScanNetwork world portSched hostSched target portsSpec targets ports timeout concurrency
        grabBanner = some report) ∧
    ∀ portSched hostSched report,
      ScanNetwork world portSched hostSched target portsSpec targets ports timeout concurrency
        grabBanner = some report →
      ((report.TrueTargets ++ report.FalseTargets).map (fun hr => hr.IP)).Perm targets ∧
      (∀ ip ∈ targets,
        report.TrueTargets.countP (fun hr => decide (hr.IP = ip)) +
          report.FalseTargets.countP (fun hr => decide (hr.IP = ip)) = 1) ∧
      (∀ hr, hr ∈ report.TrueTargets ↔ hr.Alive = true ∧ ∃ j ip, targets[j]? = some ip ∧
        ScanHost (world j) (portSched j) ip ports timeout concurrency grabBanner = some hr) ∧
      (∀ hr, hr ∈ report.FalseTargets ↔ hr.Alive = false ∧ ∃ j ip, targets[j]? = some ip ∧
        ScanHost (world j) (portSched j) ip ports timeout concurrency grabBanner = some hr) ∧
      report.TrueTargets.length + report.FalseTargets.length = targets.length := by
  constructor
  · intro hc
    refine ⟨fun _ => seqSchedule ports.length, seqSchedule targets.length, ?_⟩
    rw [ScanNetwork_eq, if_neg (by omega)]
    have hf := fanOut_seq concurrency.toNat (by omega) targets.enum
    rw [List.enum_length] at hf
    rw [hf]
    obtain ⟨rep, hrep⟩ := foldl_collectHost_seq world ports timeout concurrency hc grabBanner
      targets.enum { TrueTargets := [], FalseTargets := [], Target := target,
                     PortsScanned := portsSpec,
                     Notes := "Scan initiated via web interface".toList }
    simp only [hrep]
    exact ⟨_, rfl⟩
  · intro portSched hostSched report h
    rw [ScanNetwork_eq] at h
    split_ifs at h with hneg
    cases hf : fanOut concurrency.toNat targets.enum hostSched with
    | none => rw [hf] at h; simp at h
    | some order =>
      rw [hf] at h
      simp only at h
      cases hcol : order.foldl (collectHost world portSched ports timeout concurrency grabBanner)
          (some { TrueTargets := [], FalseTargets := [], Target := target,
                  PortsScanned := portsSpec,
                  Notes := "Scan initiated via web interface".toList }) with
      | none => rw [hcol] at h; simp at h
      | some rep =>
        rw [hcol] at h
        simp only [Option.some.injEq] at h
        obtain ⟨results, hF, hT, hD⟩ := foldl_collectHost world portSched ports timeout
          concurrency grabBanner order _ rep hcol
        simp only [List.nil_append] at hT hD
        have hperm : order.Perm targets.enum := fanOut_perm _ _ _ _ hf
        have hTp : report.TrueTargets.Perm (results.filter (fun hr => hr.Alive)) := by
          rw [← h, ← hT]
          exact sortSlice_perm _ _
        have hDp : report.FalseTargets.Perm (results.filter (fun hr => !hr.Alive)) := by
          rw [← h, ← hD]
          exact sortSlice_perm _ _
        have hall : (report.TrueTargets ++ report.FalseTargets).Perm results :=
          (hTp.append hDp).trans (List.filter_append_perm _ results)
        have hips : ((report.TrueTargets ++ report.FalseTargets).map (fun hr => hr.IP)).Perm
            targets := by
          refine (hall.map _).trans ?_
          rw [forall2_scan_ip hF]
          have := hperm.map Prod.snd
          rwa [List.enum_map_snd] at this
        have hres : ∀ hr, hr ∈ results ↔ ∃ j ip, targets[j]? = some ip ∧
            ScanHost (world j) (portSched j) ip ports timeout concurrency grabBanner =
              some hr := by
          intro hr
          constructor
          · intro hm
            obtain ⟨t, ht, y0, _, rfl, hr0⟩ := (forall2_mem_right hF hr).mp hm
            exact ⟨t.1, t.2, List.mem_enum_iff_getElem?.mp (hperm.mem_iff.mp ht), hr0⟩
          · rintro ⟨j, ip, hj, hs⟩
            have ht : (j, ip) ∈ order :=
              hperm.mem_iff.mpr (List.mk_mem_enum_iff_getElem?.mpr hj)
            obtain ⟨y, hy, hr0⟩ := forall2_mem_left hF (j, ip) ht
            rw [hs] at hr0
            cases hr0
            exact hy
        refine ⟨hips, ?_, ?_, ?_, ?_⟩
        · intro ip hip
          have h1 := (hips.count_eq ip).trans (List.count_eq_one_of_mem hnd hip)
          unfold List.count at h1
          rw [List.countP_map] at h1
          rw [← List.countP_append, ← h1]
          apply List.countP_congr
          intro hr _
          simp
        · intro hr
          rw [hTp.mem_iff, List.mem_filter, hres hr, and_comm]
        · intro hr
          rw [hDp.mem_iff, List.mem_filter, hres hr, and_comm]
          simp
        · rw [← List.length_append, ← hips.length_eq, List.length_map]

/-- Witness for C4: three targets, the second of them alive. -/
theorem ScanNetwork_partition_witness :
    ["10.0.0.1".toList, "10.0.0.2".toList, "10.0.0.3".toList].Nodup ∧
    ScanNetwork secondHostUp (fun _ => seqSchedule 2)
      [.launch, .launch, .launch, .deliver 2, .deliver 1, .deliver 0, .release 0, .release 0,
       .release 0]
      "10.0.0.0/29".toList "22,80".toList
      ["10.0.0.1".toList, "10.0.0.2".toList, "10.0.0.3".toList] [22, 80] 1000 4 false =
      some { TrueTargets := [⟨"10.0.0.2".toList, true, [⟨22, true, [], []⟩, ⟨80, true, [], []⟩]⟩],
             FalseTargets := [⟨"10.0.0.1".toList, false, []⟩, ⟨"10.0.0.3".toList, false, []⟩],
             Target := "10.0.0.0/29".toList, PortsScanned := "22,80".toList,
             Notes := "Scan initiated via web interface".toList } ∧
    ∀ portSched hostSched report,
      ScanNetwork secondHostUp portSched hostSched "10.0.0.0/29".toList "22,80".toList
        ["10.0.0.1".toList, "10.0.0.2".toList, "10.0.0.3".toList] [22, 80] 1000 4 false =
        some report →
      report.TrueTargets.length + report.FalseTargets.length = 3 :=
  ⟨by decide, by decide, fun portSched hostSched report h =>
    ((ScanNetwork_partition secondHostUp "10.0.0.0/29".toList "22,80".toList
      ["10.0.0.1".toList, "10.0.0.2".toList, "10.0.0.3".toList] [22, 80] 1000 4 false
      (by decide)).2 portSched hostSched report h).2.2.2.2⟩

/-! ## Proofs: `HostsFromCIDR` -/

set_option maxRecDepth 1000000 in
theorem land_masks : ∀ x, x < 256 →
    x &&& 0 = 0 ∧ x &&& 128 = x / 128 * 128 ∧ x &&& 192 = x / 64 * 64 ∧
    x &&& 224 = x / 32 * 32 ∧ x &&& 240 = x / 16 * 16 ∧ x &&& 248 = x / 8 * 8 ∧
    x &&& 252 = x / 4 * 4 ∧ x &&& 254 = x / 2 * 2 ∧ x &&& 255 = x := by
  decide

theorem land_mod_0 (y : Nat) : (y % 256) &&& 0 = 0 := (land_masks _ (Nat.mod_lt _ (by decide))).1
theorem land_mod_128 (y : Nat) : (y % 256) &&& 128 = y % 256 / 128 * 128 :=
  (land_masks _ (Nat.mod_lt _ (by decide))).2.1
theorem land_mod_192 (y : Nat) : (y % 256) &&& 192 = y % 256 / 64 * 64 :=
  (land_masks _ (Nat.mod_lt _ (by decide))).2.2.1
theorem land_mod_224 (y : Nat) : (y % 256) &&& 224 = y % 256 / 32 * 32 :=
  (land_masks _ (Nat.mod_lt _ (by decide))).2.2.2.1
theorem land_mod_240 (y : Nat) : (y % 256) &&& 240 = y % 256 / 16 * 16 :=
  (land_masks _ (Nat.mod_lt _ (by decide))).2.2.2.2.1
theorem land_mod_248 (y : Nat) : (y % 256) &&& 248 = y % 256 / 8 * 8 :=
  (land_masks _ (Nat.mod_lt _ (by decide))).2.2.2.2.2.1
theorem land_mod_252 (y : Nat) : (y % 256) &&& 252 = y % 256 / 4 * 4 :=
  (land_masks _ (Nat.mod_lt _ (by decide))).2.2.2.2.2.2.1
theorem land_mod_254 (y : Nat) : (y % 256) &&& 254 = y % 256 / 2 * 2 :=
  (land_masks _ (Nat.mod_lt _ (by decide))).2.2.2.2.2.2.2.1
theorem land_mod_255 (y : Nat) : (y % 256) &&& 255 = y % 256 :=
  (land_masks _ (Nat.mod_lt _ (by decide))).2.2.2.2.2.2.2.2

theorem incIP_bytes (a b c d : Nat) : incIP [a, b, c, d] =
    if (d + 1) % 256 ≠ 0 then [a, b, c, (d + 1) % 256]
    else if (c + 1) % 256 ≠ 0 then [a, b, (c + 1) % 256, (d + 1) % 256]
    else if (b + 1) % 256 ≠ 0 then [a, (b + 1) % 256, (c + 1) % 256, (d + 1) % 256]
    else [(a + 1) % 256, (b + 1) % 256, (c + 1) % 256, (d + 1) % 256] := by
  simp only [incIP, incIPLoop, List.length_cons, List.length_nil, List.set_cons_succ,
    List.set_cons_zero, List.getD_cons_succ, List.getD_cons_zero, Nat.reduceAdd]
  split_ifs <;> rfl

theorem incIP_ip4OfNat (n : Nat) : incIP (ip4OfNat n) = ip4OfNat ((n + 1) % 4294967296) := by
  unfold ip4OfNat
  rw [incIP_bytes]
  split_ifs with h1 h2 h3
  · congr 1 <;> [omega; (congr 1 <;> [omega; (congr 1 <;> [omega; (congr 1; omega)])])]
  · congr 1 <;> [omega; (congr 1 <;> [omega; (congr 1 <;> [omega; (congr 1; omega)])])]
  · congr 1 <;> [omega; (congr 1 <;> [omega; (congr 1 <;> [omega; (congr 1; omega)])])]
  · congr 1 <;> [omega; (congr 1 <;> [omega; (congr 1 <;> [omega; (congr 1; omega)])])]

theorem SplitN2_append {r0 r1 : Str} {sep : Char} (h : sep ∉ r0) :
    SplitN2 (r0 ++ sep :: r1) sep = [r0, r1] := by
  have hmem : sep ∈ r0 ++ sep :: r1 := by simp
  obtain ⟨a, b, hs, hab, ha⟩ := SplitN2_of_mem hmem
  rcases cut_unique sep r0 r1 a b h hab with ⟨h1, h2⟩ | ⟨X, hX⟩
  · rw [hs, h1, h2]
  · exact absurd (by rw [hX]; simp) ha

set_option maxHeartbeats 4000000 in
theorem mask_start (p : Nat) (hp : p ≤ 32) (n : Nat) (hn : n < 4294967296) :
    IP.Mask (v4InV6Prefix ++ ip4OfNat n) (CIDRMask p 32) =
      ip4OfNat (n / blockSize p * blockSize p) := by
  interval_cases p <;>
  simp [IP.Mask, CIDRMask, cidrMaskLoop, v4InV6Prefix, ip4OfNat, blockSize, land_mod_0,
    land_mod_128, land_mod_192, land_mod_224, land_mod_240, land_mod_248, land_mod_252,
    land_mod_254, land_mod_255] <;> omega

set_option maxHeartbeats 4000000 in
theorem contains_ip4 (p : Nat) (hp : p ≤ 32) (net n : Nat) (hnet : net < 4294967296)
    (hn : n < 4294967296) (hal : net % blockSize p = 0) :
    IPNet.Contains { IP := ip4OfNat net, Mask := CIDRMask p 32 } (ip4OfNat n) = true ↔
      n / blockSize p = net / blockSize p := by
  interval_cases p <;>
  simp [IPNet.Contains, networkNumberAndMask, IP.To4, containsLoop, CIDRMask, cidrMaskLoop,
    ip4OfNat, blockSize, land_mod_0,
    land_mod_128, land_mod_192, land_mod_224, land_mod_240, land_mod_248, land_mod_252,
    land_mod_254, land_mod_255] at hal ⊢ <;> omega

theorem block_inside (p : Nat) (hp1 : 1 ≤ p) (hp : p ≤ 32) (net j : Nat)
    (hnet : net < 4294967296) (hal : net % blockSize p = 0) (hj : j < blockSize p) :
    net + j < 4294967296 ∧ (net + j) / blockSize p = net / blockSize p := by
  interval_cases p <;> simp only [blockSize, Nat.reduceSub, Nat.reducePow] at hal hj ⊢ <;> omega

theorem block_end (p : Nat) (hp1 : 1 ≤ p) (hp : p ≤ 32) (net : Nat)
    (_ : net < 4294967296) (hal : net % blockSize p = 0) :
    (net + blockSize p) % 4294967296 / blockSize p ≠ net / blockSize p := by
  interval_cases p <;> simp only [blockSize, Nat.reduceSub, Nat.reducePow] at hal ⊢ <;> omega

theorem network4_props (a b c d p : Nat) (ha : a < 256) (hb : b < 256) (hc : c < 256)
    (hd : d < 256) (hp : p ≤ 32) :
    network4 a b c d p < 4294967296 ∧ network4 a b c d p % blockSize p = 0 := by
  unfold network4 val4
  interval_cases p <;> simp only [blockSize, Nat.reduceSub, Nat.reducePow] <;> omega

theorem ip4OfNat_val4 (a b c d : Nat) (ha : a < 256) (hb : b < 256) (hc : c < 256)
    (hd : d < 256) : ip4OfNat (val4 a b c d) = [a, b, c, d] := by
  unfold ip4OfNat val4
  congr 1 <;> [omega; (congr 1 <;> [omega; (congr 1 <;> [omega; (congr 1; omega)])])]

/-- The enumeration loop over an IPv4 block of prefix length at least one, with
`k` addresses of the block still ahead: it visits them in ascending order and
stops at the end of the block. -/
theorem hostLoop_v4 (ipString : IP → Str) (p : Nat) (hp1 : 1 ≤ p) (hp : p ≤ 32) (net : Nat)
    (hnet : net < 4294967296) (hal : net % blockSize p = 0) :
    ∀ (k fuel : Nat) (acc : List Str), k ≤ blockSize p → k < fuel →
      hostLoop ipString fuel { IP := ip4OfNat net, Mask := CIDRMask p 32 }
        (ip4OfNat ((net + (blockSize p - k)) % 4294967296)) acc =
      some (acc ++ (List.range' (net + (blockSize p - k)) k).map (fun n => ipString (ip4OfNat n))) := by
  intro k
  induction k with
  | zero =>
    intro fuel acc _ hf
    cases fuel with
    | zero => omega
    | succ f =>
      have hc : IPNet.Contains { IP := ip4OfNat net, Mask := CIDRMask p 32 }
          (ip4OfNat ((net + (blockSize p - 0)) % 4294967296)) = false := by
        rw [Bool.eq_false_iff]
        intro hh
        rw [contains_ip4 p hp net _ hnet (Nat.mod_lt _ (by decide)) hal] at hh
        exact block_end p hp1 hp net hnet hal hh
      simp only [hostLoop, hc, Bool.false_eq_true, if_false, List.range'_zero, List.map_nil,
        List.append_nil]
  | succ k ih =>
    intro fuel acc hk hf
    cases fuel with
    | zero => omega
    | succ f =>
      obtain ⟨h1, h2⟩ := block_inside p hp1 hp net (blockSize p - (k + 1)) hnet hal (by omega)
      have hmod : (net + (blockSize p - (k + 1))) % 4294967296 = net + (blockSize p - (k + 1)) :=
        Nat.mod_eq_of_lt h1
      have hc : IPNet.Contains { IP := ip4OfNat net, Mask := CIDRMask p 32 }
          (ip4OfNat (net + (blockSize p - (k + 1)))) = true :=
        (contains_ip4 p hp net _ hnet h1 hal).mpr h2
      have hnext : net + (blockSize p - (k + 1)) + 1 = net + (blockSize p - k) := by omega
      rw [hmod]
      simp only [hostLoop, hc, if_true]
      rw [incIP_ip4OfNat, hnext, ih f _ (by omega) (by omega), List.range'_succ, List.map_cons, hnext]
      simp

theorem hostLoop_v4_block (ipString : IP → Str) (p : Nat) (hp1 : 1 ≤ p) (hp : p ≤ 32) (net : Nat)
    (hnet : net < 4294967296) (hal : net % blockSize p = 0) (fuel : Nat)
    (hf : blockSize p < fuel) :
    hostLoop ipString fuel { IP := ip4OfNat net, Mask := CIDRMask p 32 } (ip4OfNat net) [] =
      some ((List.range' net (blockSize p)).map (fun n => ipString (ip4OfNat n))) := by
  have h := hostLoop_v4 ipString p hp1 hp net hnet hal (blockSize p) fuel [] (le_refl _) hf
  simpa [Nat.mod_eq_of_lt hnet] using h

theorem ParseCIDR_v4 (parseAddr : Str → Option Addr) (addrTxt maskTxt : Str) (a b c d p : Nat)
    (hslash : '/' ∉ addrTxt) (haddr : parseAddr addrTxt = some (.v4 a b c d))
    (ha : a < 256) (hb : b < 256) (hc : c < 256) (hd : d < 256)
    (hmask : dtoi maskTxt = (p, maskTxt.length, true)) (hp : p ≤ 32) :
    ParseCIDR parseAddr (addrTxt ++ '/' :: maskTxt) =
      .ok (v4InV6Prefix ++ [a, b, c, d],
        { IP := ip4OfNat (network4 a b c d p), Mask := CIDRMask p 32 }) := by
  unfold ParseCIDR
  rw [SplitN2_append hslash]
  simp only [haddr, hmask, Addr.BitLen, Addr.As16]
  rw [if_neg (by simp; omega)]
  rw [← ip4OfNat_val4 a b c d ha hb hc hd, mask_start p hp _ (by unfold val4; omega)]
  rfl

theorem trim_ends {α : Type} (x y : α) (M : List α) :
    ((x :: (M ++ [y])).drop 1).take ((x :: (M ++ [y])).length - 2) = M := by
  simp

theorem range_ends (s n : Nat) :
    List.range' s (n + 2) = s :: (List.range' (s + 1) n ++ [s + 1 + n]) := by
  rw [List.range'_succ, List.range'_1_concat]

theorem blockSize_cases (p : Nat) (hp1 : 1 ≤ p) (hp : p ≤ 32) :
    (p ≤ 30 → ∃ m, blockSize p = m + 2 ∧ 1 ≤ m) ∧ (p = 31 → blockSize p = 2) ∧
    (p = 32 → blockSize p = 1) := by
  interval_cases p <;> simp [blockSize]

/-- C2. For an IPv4 CIDR text `addr/p` with `1 ≤ p ≤ 32`, and fuel for the
whole block, `HostsFromCIDR` returns the texts of the addresses of the block
that holds `addr` (host bits cleared) in ascending numeric order: for
`p ≤ 30` the `2^(32-p) - 2` addresses strictly between the network and the
broadcast address, for `p = 31` both addresses of the block, for `p = 32` the
single address. -/
theorem HostsFromCIDR_v4 (parseAddr : Str → Option Addr) (ipString : IP → Str)
    (addrTxt maskTxt : Str) (a b c d p fuel : Nat)
    (hslash : '/' ∉ addrTxt) (haddr : parseAddr addrTxt = some (.v4 a b c d))
    (ha : a < 256) (hb : b < 256) (hc : c < 256) (hd : d < 256)
    (hmask : dtoi maskTxt = (p, maskTxt.length, true)) (hp1 : 1 ≤ p) (hp32 : p ≤ 32)
    (hfuel : blockSize p < fuel) :
    (p ≤ 30 → HostsFromCIDR parseAddr ipString fuel (addrTxt ++ '/' :: maskTxt) =
      some (.ok ((List.range' (network4 a b c d p + 1) (blockSize p - 2)).map
        (fun n => ipString (ip4OfNat n))))) ∧
    (p = 31 → HostsFromCIDR parseAddr ipString fuel (addrTxt ++ '/' :: maskTxt) =
      some (.ok [ipString (ip4OfNat (network4 a b c d p)),
                 ipString (ip4OfNat (network4 a b c d p + 1))])) ∧
    (p = 32 → HostsFromCIDR parseAddr ipString fuel (addrTxt ++ '/' :: maskTxt) =
      some (.ok [ipString (ip4OfNat (network4 a b c d p))])) := by
  obtain ⟨hnet, hal⟩ := network4_props a b c d p ha hb hc hd hp32
  have hparse := ParseCIDR_v4 parseAddr addrTxt maskTxt a b c d p hslash haddr ha hb hc hd hmask hp32
  have hstart : IP.Mask (v4InV6Prefix ++ [a, b, c, d]) (CIDRMask p 32) =
      ip4OfNat (network4 a b c d p) := by
    rw [← ip4OfNat_val4 a b c d ha hb hc hd, mask_start p hp32 _ (by unfold val4; omega)]
    rfl
  have hloop := hostLoop_v4_block ipString p hp1 hp32 _ hnet hal fuel hfuel
  have hH : HostsFromCIDR parseAddr ipString fuel (addrTxt ++ '/' :: maskTxt) =
      (if ((List.range' (network4 a b c d p) (blockSize p)).map
            (fun n => ipString (ip4OfNat n))).length > 2 then
        some (.ok ((((List.range' (network4 a b c d p) (blockSize p)).map
            (fun n => ipString (ip4OfNat n))).drop 1).take
          (((List.range' (network4 a b c d p) (blockSize p)).map
            (fun n => ipString (ip4OfNat n))).length - 2)))
      else some (.ok ((List.range' (network4 a b c d p) (blockSize p)).map
            (fun n => ipString (ip4OfNat n))))) := by
    unfold HostsFromCIDR
    rw [hparse]
    simp only [hstart, hloop]
  obtain ⟨h30, h31, h32⟩ := blockSize_cases p hp1 hp32
  refine ⟨fun hp => ?_, fun hp => ?_, fun hp => ?_⟩
  · obtain ⟨m, hm, _⟩ := h30 hp
    rw [hH, hm, range_ends, List.map_cons, List.map_append, List.map_singleton,
      if_pos (by simp; omega), trim_ends]
    simp
  · rw [hH, h31 hp]
    simp [List.range'_succ]
  · rw [hH, h32 hp]
    simp [List.range'_succ]

theorem hostLoop_slash0 (ipString : IP → Str) (fuel : Nat) : ∀ (n : Nat) (acc : List Str),
    n < 4294967296 →
    hostLoop ipString fuel { IP := ip4OfNat 0, Mask := CIDRMask 0 32 } (ip4OfNat n) acc = none := by
  induction fuel with
  | zero => intro n acc _; rfl
  | succ f ih =>
    intro n acc hn
    have hc : IPNet.Contains { IP := ip4OfNat 0, Mask := CIDRMask 0 32 } (ip4OfNat n) = true := by
      rw [contains_ip4 0 (by decide) 0 n (by decide) hn (by simp [blockSize])]
      simp only [blockSize]
      omega
    simp only [hostLoop, hc, if_true]
    rw [incIP_ip4OfNat]
    exact ih _ _ (Nat.mod_lt _ (by decide))

/-- On an IPv4 CIDR text with prefix length 0 the enumeration loop of
`HostsFromCIDR` never ends: every 4-byte address is in the block and `incIP`
wraps from `255.255.255.255` to `0.0.0.0`. -/
theorem HostsFromCIDR_v4_slash0 (parseAddr : Str → Option Addr) (ipString : IP → Str)
    (addrTxt maskTxt : Str) (a b c d : Nat)
    (hslash : '/' ∉ addrTxt) (haddr : parseAddr addrTxt = some (.v4 a b c d))
    (ha : a < 256) (hb : b < 256) (hc : c < 256) (hd : d < 256)
    (hmask : dtoi maskTxt = (0, maskTxt.length, true)) :
    ∀ fuel, HostsFromCIDR parseAddr ipString fuel (addrTxt ++ '/' :: maskTxt) = none := by
  intro fuel
  have hparse := ParseCIDR_v4 parseAddr addrTxt maskTxt a b c d 0 hslash haddr ha hb hc hd hmask
    (by decide)
  have hn : network4 a b c d 0 = 0 := by
    unfold network4 val4 blockSize
    simp only [Nat.sub_zero, Nat.reducePow]
    omega
  have hstart : IP.Mask (v4InV6Prefix ++ [a, b, c, d]) (CIDRMask 0 32) = ip4OfNat 0 := by
    rw [← ip4OfNat_val4 a b c d ha hb hc hd, mask_start 0 (by decide) _ (by unfold val4; omega)]
    exact congrArg ip4OfNat hn
  unfold HostsFromCIDR
  rw [hparse, hn]
  simp only [hstart]
  rw [hostLoop_slash0 ipString fuel 0 [] (by decide)]

/-- C10 fails on `0.0.0.0/0`: the text parses, and with whatever fuel the
enumeration loop of `HostsFromCIDR` does not come to an end. -/
theorem HostsFromCIDR_slash0_diverges :
    ParseCIDR parseAddrV4 "0.0.0.0/0".toList =
      .ok (v4InV6Prefix ++ [0, 0, 0, 0], { IP := [0, 0, 0, 0], Mask := [0, 0, 0, 0] }) ∧
    ∀ fuel, HostsFromCIDR parseAddrV4 ipStringV4 fuel "0.0.0.0/0".toList = none :=
  ⟨by decide,
    HostsFromCIDR_v4_slash0 parseAddrV4 ipStringV4 "0.0.0.0".toList "0".toList 0 0 0 0
      (by decide) (by decide) (by decide) (by decide) (by decide) (by decide) (by decide)⟩

/-- Witness for C2: `192.168.1.0/30` gives `192.168.1.1` and `192.168.1.2`. -/
theorem HostsFromCIDR_v4_witness :
    HostsFromCIDR parseAddrV4 ipStringV4 5 "192.168.1.0/30".toList =
      some (.ok ["192.168.1.1".toList, "192.168.1.2".toList]) := by
  have h := (HostsFromCIDR_v4 parseAddrV4 ipStringV4 "192.168.1.0".toList "30".toList
    192 168 1 0 30 5
    (by decide) (by decide) (by decide) (by decide) (by decide) (by decide) (by decide)
    (by decide) (by decide) (by decide)).1 (by decide)
  have e : "192.168.1.0/30".toList = "192.168.1.0".toList ++ '/' :: "30".toList := by decide
  rw [e, h]
  decide

end Penego
